import Mathlib

/-!
Verification development for the klaus-operator reconciliation engine.

The Go sources are shallowly embedded: pure functions become Lean functions,
controller passes become explicit functions over an environment record that
fixes the outcome of every external call, Go maps become key-sorted
association lists (so that structural equality coincides with Go's
extensional map equality), and Go `error` results become `Except`/`Option`.
-/

namespace Klaus

/-! ## Key-sorted association lists: the model of Go `map[string]V`

A Go map is semantically a finite partial function; two Go maps are equal
when they hold the same key/value pairs.  We represent a map as an
association list strictly sorted by key, which makes the representation
canonical: extensional equality of maps is structural equality of the
representation.  Iteration order of a Go map is unspecified, so any code
that folds over a map is modelled as folding in sorted key order; this is
faithful whenever the fold's result does not depend on the order of
distinct keys, which is the case for every fold in this repository. -/

def KeySorted {V : Type} (l : List (String × V)) : Prop :=
  l.Pairwise (fun a b => a.1 < b.1)

instance {V : Type} (l : List (String × V)) : Decidable (KeySorted l) :=
  inferInstanceAs (Decidable (l.Pairwise _))

/-- A model of a Go `map[string]V`: a key-sorted association list. -/
def Smap (V : Type) : Type := { l : List (String × V) // KeySorted l }

instance {V : Type} [DecidableEq V] : DecidableEq (Smap V) :=
  inferInstanceAs (DecidableEq { l : List (String × V) // KeySorted l })

/-- Insert with overwrite into a (sorted) association list. -/
def sinsert {V : Type} (k : String) (v : V) : List (String × V) → List (String × V)
  | [] => [(k, v)]
  | (k₂, v₂) :: t =>
    if k < k₂ then (k, v) :: (k₂, v₂) :: t
    else if k = k₂ then (k, v) :: t
    else (k₂, v₂) :: sinsert k v t

/-- Lookup in an association list (first match). -/
def slookup {V : Type} (k : String) : List (String × V) → Option V
  | [] => none
  | (k₂, v₂) :: t => if k = k₂ then some v₂ else slookup k t

theorem slookup_sinsert {V : Type} (k q : String) (v : V) (l : List (String × V)) :
    slookup q (sinsert k v l) = if q = k then some v else slookup q l := by
  induction l with
  | nil => simp [sinsert, slookup]
  | cons h t ih =>
    obtain ⟨k₂, v₂⟩ := h
    by_cases h1 : k < k₂
    · simp only [sinsert, if_pos h1, slookup]
    · by_cases h2 : k = k₂
      · subst h2
        simp only [sinsert, if_neg h1, if_pos rfl, slookup]
        by_cases hq : q = k <;> simp [hq]
      · simp only [sinsert, if_neg h1, if_neg h2, slookup, ih]
        by_cases hq : q = k₂
        · subst hq
          simp [Ne.symm h2]
        · simp [hq]

theorem mem_sinsert {V : Type} (k : String) (v : V) (l : List (String × V))
    (b : String × V) (hb : b ∈ sinsert k v l) : b = (k, v) ∨ b ∈ l := by
  induction l with
  | nil => simpa [sinsert] using hb
  | cons h t ih =>
    obtain ⟨k₂, v₂⟩ := h
    by_cases h1 : k < k₂
    · rw [sinsert, if_pos h1] at hb
      simpa using hb
    · by_cases h2 : k = k₂
      · rw [sinsert, if_neg h1, if_pos h2] at hb
        rcases List.mem_cons.mp hb with hb | hb
        · simp [hb]
        · exact Or.inr (List.mem_cons_of_mem _ hb)
      · rw [sinsert, if_neg h1, if_neg h2] at hb
        rcases List.mem_cons.mp hb with hb | hb
        · rw [hb]; exact Or.inr (List.mem_cons_self _ _)
        · rcases ih hb with hb | hb
          · exact Or.inl hb
          · exact Or.inr (List.mem_cons_of_mem _ hb)

theorem keySorted_sinsert {V : Type} (k : String) (v : V) (l : List (String × V))
    (hl : KeySorted l) : KeySorted (sinsert k v l) := by
  induction l with
  | nil => simp [sinsert, KeySorted]
  | cons h t ih =>
    obtain ⟨k₂, v₂⟩ := h
    rw [KeySorted, List.pairwise_cons] at hl
    obtain ⟨hall, htail⟩ := hl
    by_cases h1 : k < k₂
    · rw [sinsert, if_pos h1]
      refine List.Pairwise.cons ?_ (List.Pairwise.cons hall htail)
      intro b hb
      rcases List.mem_cons.mp hb with hb | hb
      · rw [hb]; exact h1
      · exact lt_trans h1 (hall b hb)
    · by_cases h2 : k = k₂
      · subst h2
        rw [sinsert, if_neg h1, if_pos rfl]
        exact List.Pairwise.cons hall htail
      · rw [sinsert, if_neg h1, if_neg h2]
        have hk2 : k₂ < k := by
          rcases lt_trichotomy k k₂ with h | h | h
          · exact absurd h h1
          · exact absurd h h2
          · exact h
        refine List.Pairwise.cons ?_ (ih htail)
        intro b hb
        rcases mem_sinsert k v t b hb with hb | hb
        · rw [hb]; exact hk2
        · exact hall b hb

/-- First-defined choice between two optional values. -/
def ofirst {V : Type} (o₁ o₂ : Option V) : Option V :=
  match o₁ with
  | some v => some v
  | none => o₂

@[simp]
theorem ofirst_some {V : Type} (v : V) (o : Option V) : ofirst (some v) o = some v := rfl

@[simp]
theorem ofirst_none {V : Type} (o : Option V) : ofirst none o = o := rfl

theorem slookup_append {V : Type} (q : String) (l₁ l₂ : List (String × V)) :
    slookup q (l₁ ++ l₂) = ofirst (slookup q l₁) (slookup q l₂) := by
  induction l₁ with
  | nil => simp [slookup]
  | cons h t ih =>
    obtain ⟨k, v⟩ := h
    by_cases hq : q = k
    · simp [slookup, hq]
    · simp [slookup, hq, ih]

theorem slookup_eq_none {V : Type} (q : String) (l : List (String × V))
    (h : ∀ p ∈ l, p.1 ≠ q) : slookup q l = none := by
  induction l with
  | nil => rfl
  | cons hd t ih =>
    obtain ⟨k, v⟩ := hd
    have hk : k ≠ q := h (k, v) (List.mem_cons_self _ _)
    rw [slookup, if_neg (Ne.symm hk)]
    exact ih (fun p hp => h p (List.mem_cons_of_mem _ hp))

/-- Folding `sinsert` over a list of entries (the model of populating a Go
map with successive assignments). -/
def sfold {V : Type} (init : List (String × V)) (l : List (String × V)) :
    List (String × V) :=
  l.foldl (fun acc p => sinsert p.1 p.2 acc) init

theorem keySorted_sfold {V : Type} (init l : List (String × V))
    (h : KeySorted init) : KeySorted (sfold init l) := by
  induction l generalizing init with
  | nil => exact h
  | cons hd t ih => exact ih _ (keySorted_sinsert hd.1 hd.2 init h)

theorem slookup_sfold {V : Type} (q : String) (init l : List (String × V)) :
    slookup q (sfold init l) = ofirst (slookup q l.reverse) (slookup q init) := by
  induction l generalizing init with
  | nil => simp [sfold, slookup]
  | cons hd t ih =>
    obtain ⟨k, v⟩ := hd
    rw [sfold, List.foldl_cons]
    have : slookup q (List.reverse ((k, v) :: t)) =
        ofirst (slookup q t.reverse) (if q = k then some v else none) := by
      rw [List.reverse_cons, slookup_append]
      cases slookup q t.reverse <;> simp [slookup]
    rw [this]
    have hrec := ih (sinsert k v init)
    rw [sfold] at hrec
    rw [hrec, slookup_sinsert]
    cases slookup q t.reverse <;> by_cases hq : q = k <;> simp [hq]

theorem slookup_cons_head_lt {V : Type} (q k : String) (v : V)
    (t : List (String × V)) (hs : KeySorted ((k, v) :: t)) (hq : q < k) :
    slookup q ((k, v) :: t) = none := by
  rw [KeySorted, List.pairwise_cons] at hs
  rw [slookup, if_neg (by intro h; rw [h] at hq; exact lt_irrefl _ hq)]
  exact slookup_eq_none q t (fun p hp => by
    have := hs.1 p hp
    intro h
    rw [h] at this
    exact lt_asymm hq this)

theorem keySorted_ext {V : Type} (l₁ l₂ : List (String × V))
    (h₁ : KeySorted l₁) (h₂ : KeySorted l₂)
    (h : ∀ q, slookup q l₁ = slookup q l₂) : l₁ = l₂ := by
  induction l₁ generalizing l₂ with
  | nil =>
    cases l₂ with
    | nil => rfl
    | cons hd t =>
      have := h hd.1
      rw [slookup] at this
      simp [slookup] at this
  | cons hd t ih =>
    obtain ⟨k, v⟩ := hd
    cases l₂ with
    | nil =>
      have := h k
      simp [slookup] at this
    | cons hd₂ t₂ =>
      obtain ⟨k₂, v₂⟩ := hd₂
      have hkk : k = k₂ := by
        rcases lt_trichotomy k k₂ with hlt | heq | hgt
        · have hn := slookup_cons_head_lt k k₂ v₂ t₂ h₂ hlt
          have hs : slookup k ((k, v) :: t) = some v := by simp [slookup]
          rw [h k, hn] at hs
          cases hs
        · exact heq
        · have hn := slookup_cons_head_lt k₂ k v t h₁ hgt
          have hs : slookup k₂ ((k₂, v₂) :: t₂) = some v₂ := by simp [slookup]
          rw [← h k₂, hn] at hs
          cases hs
      subst hkk
      have hvv : v = v₂ := by
        have hs : slookup k ((k, v) :: t) = some v := by simp [slookup]
        have hs₂ : slookup k ((k, v₂) :: t₂) = some v₂ := by simp [slookup]
        rw [h k, hs₂] at hs
        exact (Option.some_inj.mp hs).symm
      subst hvv
      rw [KeySorted, List.pairwise_cons] at h₁ h₂
      have htails : ∀ q, slookup q t = slookup q t₂ := by
        intro q
        by_cases hq : q = k
        · subst hq
          rw [slookup_eq_none q t (fun p hp => by
                have := h₁.1 p hp; intro he; rw [he] at this; exact lt_irrefl _ this),
              slookup_eq_none q t₂ (fun p hp => by
                have := h₂.1 p hp; intro he; rw [he] at this; exact lt_irrefl _ this)]
        · have := h q
          rw [slookup, slookup, if_neg hq, if_neg hq] at this
          exact this
      rw [ih t₂ (show KeySorted t from h₁.2) (show KeySorted t₂ from h₂.2) htails]

/-- Constructing a Go map value from a list of key/value assignments,
later assignments overwriting earlier ones. -/
def Smap.ofList {V : Type} (l : List (String × V)) : Smap V :=
  ⟨sfold [] l, keySorted_sfold [] l (by simp [KeySorted])⟩

def Smap.lookup {V : Type} (k : String) (m : Smap V) : Option V :=
  slookup k m.1

def Smap.entries {V : Type} (m : Smap V) : List (String × V) := m.1

/-- Emptiness test, modelling Go's `len(m) == 0`. -/
def Smap.isEmpty {V : Type} (m : Smap V) : Bool := m.1.isEmpty

def Smap.keys {V : Type} (m : Smap V) : List String := m.1.map (fun p => p.1)

theorem Smap.ext_lookup {V : Type} (m₁ m₂ : Smap V)
    (h : ∀ q, m₁.lookup q = m₂.lookup q) : m₁ = m₂ := by
  apply Subtype.ext
  exact keySorted_ext m₁.1 m₂.1 m₁.2 m₂.2 (fun q => h q)

/-! ## Data model (api/v1alpha1/klausinstance_types.go, klauspersonality types)

External Kubernetes library types that the operator stores but never
inspects (runtime.RawExtension, corev1.ResourceRequirements,
resource.Quantity, float64 values) are embedded as opaque wrappers with
decidable equality; the merge engine only copies or nil-tests them. -/

structure RawExtension where
  raw : String
  deriving DecidableEq

structure ResourceRequirements where
  raw : String
  deriving DecidableEq

structure QuantityVal where
  raw : String
  deriving DecidableEq

structure GoFloat where
  bits : Nat
  deriving DecidableEq

structure SkillConfig where
  description : String
  content : String
  disableModelInvocation : Option Bool
  userInvocable : Option Bool
  allowedTools : String
  model : String
  context : Option RawExtension
  agent : String
  argumentHint : String
  deriving DecidableEq

structure AgentFileConfig where
  content : String
  deriving DecidableEq

structure PluginReference where
  repository : String
  tag : String
  digest : String
  deriving DecidableEq

structure MCPServerReference where
  name : String
  deriving DecidableEq

structure MCPServerSecret where
  secretName : String
  env : Smap String
  deriving DecidableEq

structure OTLPConfig where
  protocol : String
  endpoint : String
  headers : String
  deriving DecidableEq

structure TelemetryConfig where
  enabled : Option Bool
  metricsExporter : String
  logsExporter : String
  otlp : Option OTLPConfig
  metricExportIntervalMs : Option Int
  logsExportIntervalMs : Option Int
  logUserPrompts : Option Bool
  logToolDetails : Option Bool
  includeSessionID : Option Bool
  includeVersion : Option Bool
  includeAccountUUID : Option Bool
  resourceAttributes : String
  deriving DecidableEq

structure WorkspaceConfig where
  storageClass : String
  size : Option QuantityVal
  gitRepo : String
  gitRef : String
  deriving DecidableEq

structure MusterConfig where
  namespaceVal : String
  toolPrefixVal : String
  deriving DecidableEq

@[ext]
structure ClaudeConfig where
  model : String
  maxTurns : Option Int
  permissionMode : String
  systemPrompt : String
  appendSystemPrompt : String
  mcpServers : Smap RawExtension
  mcpServerSecrets : List MCPServerSecret
  mcpTimeout : Option Int
  maxMCPOutputTokens : Option Int
  strictMCPConfig : Option Bool
  maxBudgetUSD : Option GoFloat
  effort : String
  fallbackModel : String
  jsonSchema : String
  settingsFile : String
  settingSources : String
  tools : List String
  allowedTools : List String
  disallowedTools : List String
  agents : Smap RawExtension
  activeAgent : String
  persistentMode : Option Bool
  includePartialMessages : Option Bool
  noSessionPersistence : Option Bool
  deriving DecidableEq

@[ext]
structure KlausInstanceSpec where
  personalityRef : Option String
  owner : String
  claude : ClaudeConfig
  plugins : List PluginReference
  pluginDirs : List String
  mcpServers : List MCPServerReference
  skills : Smap SkillConfig
  agentFiles : Smap AgentFileConfig
  hooks : Smap RawExtension
  hookScripts : Smap String
  addDirs : List String
  loadAdditionalDirsMemory : Option Bool
  workspace : Option WorkspaceConfig
  resources : Option ResourceRequirements
  telemetry : Option TelemetryConfig
  muster : Option MusterConfig
  deriving DecidableEq

structure KlausPersonalitySpec where
  description : String
  image : String
  claude : ClaudeConfig
  plugins : List PluginReference
  pluginDirs : List String
  mcpServers : List MCPServerReference
  skills : Smap SkillConfig
  agentFiles : Smap AgentFileConfig
  hooks : Smap RawExtension
  hookScripts : Smap String
  addDirs : List String
  loadAdditionalDirsMemory : Option Bool
  resources : Option ResourceRequirements
  telemetry : Option TelemetryConfig
  deriving DecidableEq

/-! ## Merge engine (internal/resources/merge.go)

The Go source repeats two statement patterns per field, which we factor
into `mergeStr` (scalar: instance wins when non-zero) and `mergeOpt`
(pointer: instance wins when non-nil).  Keyed list merging is factored
over the identity-key accessor: `mergeKeyedReplace` is the shape of
`mergePlugins` (on a duplicate key the instance entry replaces the
personality entry in place) and `mergeKeyedDrop` is the shape of
`mergeMCPServerRefs`/`mergeMCPServerSecrets` (a duplicate instance entry
is skipped, keeping the personality entry). -/

/-- Go pattern `if instance.F == "" { instance.F = personality.F }`. -/
def mergeStr (personality inst : String) : String :=
  if inst = "" then personality else inst

/-- Go pattern `if inst.F == nil { inst.F = personality.F }`. -/
def mergeOpt {α : Type} (personality inst : Option α) : Option α :=
  match inst with
  | none => personality
  | some v => some v

/-- First loop of the keyed merges: walk the personality list, keeping the
first entry for each key and recording keys in the `seen` set. -/
def passBase {α : Type} (key : α → String) : List String → List α → List α × List String
  | seen, [] => ([], seen)
  | seen, x :: t =>
    if key x ∈ seen then passBase key seen t
    else ((x :: (passBase key (key x :: seen) t).1), (passBase key (key x :: seen) t).2)

/-- Inner loop of `mergePlugins`: replace the first entry with a matching
key (Go breaks after the first hit). -/
def replaceFirstBy {α : Type} (key : α → String) (x : α) : List α → List α
  | [] => []
  | y :: t => if key y = key x then x :: t else y :: replaceFirstBy key x t

/-- Second loop of `mergePlugins`: on a seen key, replace the accumulated
entry in place; otherwise append. -/
def passOverlayReplace {α : Type} (key : α → String) :
    List String → List α → List α → List α
  | _, merged, [] => merged
  | seen, merged, x :: t =>
    if key x ∈ seen then passOverlayReplace key seen (replaceFirstBy key x merged) t
    else passOverlayReplace key (key x :: seen) (merged ++ [x]) t

/-- Second loop of `mergeMCPServerRefs`/`mergeMCPServerSecrets`: on a seen
key the inst entry is skipped; otherwise append. -/
def passOverlayDrop {α : Type} (key : α → String) :
    List String → List α → List α → List α
  | _, merged, [] => merged
  | seen, merged, x :: t =>
    if key x ∈ seen then passOverlayDrop key seen merged t
    else passOverlayDrop key (key x :: seen) (merged ++ [x]) t

def mergeKeyedReplace {α : Type} (key : α → String)
    (personality inst : List α) : List α :=
  if personality.isEmpty then inst
  else if inst.isEmpty then personality
  else
    let base := passBase key [] personality
    passOverlayReplace key base.2 base.1 inst

def mergeKeyedDrop {α : Type} (key : α → String)
    (personality inst : List α) : List α :=
  if personality.isEmpty then inst
  else if inst.isEmpty then personality
  else
    let base := passBase key [] personality
    passOverlayDrop key base.2 base.1 inst

/-- merge.go `mergePlugins`: inst plugins appended to personality
plugins, deduplicated by repository, inst replacing in place on a
duplicate repository. -/
def mergePlugins (personality inst : List PluginReference) : List PluginReference :=
  mergeKeyedReplace (fun p => p.repository) personality inst

/-- merge.go `mergeMCPServerRefs`: deduplicated by name; a duplicate
instance reference is dropped (the personality entry is kept). -/
def mergeMCPServerRefs (personality inst : List MCPServerReference) :
    List MCPServerReference :=
  mergeKeyedDrop (fun r => r.name) personality inst

/-- merge.go `mergeMCPServerSecrets`: deduplicated by secret name; a
duplicate inst secret is dropped (the personality entry is kept). -/
def mergeMCPServerSecrets (personality inst : List MCPServerSecret) :
    List MCPServerSecret :=
  mergeKeyedDrop (fun s => s.secretName) personality inst

/-- merge.go `mergeStringSlices`: concatenation, no deduplication. -/
def mergeStringSlices (personality inst : List String) : List String :=
  if personality.isEmpty then inst
  else if inst.isEmpty then personality
  else personality ++ inst

/-- merge.go map merges (`mergeSkillsMap`, `mergeAgentFilesMap`,
`mergeRawExtensionMap`, `mergeStringMap` share this exact shape):
personality entries are inserted first, inst entries overwrite on a
key conflict; when one side is empty the other map is returned directly. -/
def mergeGoMap {V : Type} (personality inst : Smap V) : Smap V :=
  if personality.isEmpty then inst
  else if inst.isEmpty then personality
  else
    ⟨sfold (sfold [] personality.1) inst.1,
      keySorted_sfold _ _ (keySorted_sfold _ _ (by simp [KeySorted]))⟩

def mergeSkillsMap (personality inst : Smap SkillConfig) : Smap SkillConfig :=
  mergeGoMap personality inst

def mergeAgentFilesMap (personality inst : Smap AgentFileConfig) :
    Smap AgentFileConfig :=
  mergeGoMap personality inst

def mergeRawExtensionMap (personality inst : Smap RawExtension) :
    Smap RawExtension :=
  mergeGoMap personality inst

def mergeStringMap (personality inst : Smap String) : Smap String :=
  mergeGoMap personality inst

/-- merge.go `mergeClaudeConfig`. -/
def mergeClaudeConfig (personality inst : ClaudeConfig) : ClaudeConfig where
  model := mergeStr personality.model inst.model
  maxTurns := mergeOpt personality.maxTurns inst.maxTurns
  permissionMode := mergeStr personality.permissionMode inst.permissionMode
  systemPrompt := mergeStr personality.systemPrompt inst.systemPrompt
  appendSystemPrompt := mergeStr personality.appendSystemPrompt inst.appendSystemPrompt
  mcpServers := mergeRawExtensionMap personality.mcpServers inst.mcpServers
  mcpServerSecrets := mergeMCPServerSecrets personality.mcpServerSecrets inst.mcpServerSecrets
  mcpTimeout := mergeOpt personality.mcpTimeout inst.mcpTimeout
  maxMCPOutputTokens := mergeOpt personality.maxMCPOutputTokens inst.maxMCPOutputTokens
  strictMCPConfig := mergeOpt personality.strictMCPConfig inst.strictMCPConfig
  maxBudgetUSD := mergeOpt personality.maxBudgetUSD inst.maxBudgetUSD
  effort := mergeStr personality.effort inst.effort
  fallbackModel := mergeStr personality.fallbackModel inst.fallbackModel
  jsonSchema := mergeStr personality.jsonSchema inst.jsonSchema
  settingsFile := mergeStr personality.settingsFile inst.settingsFile
  settingSources := mergeStr personality.settingSources inst.settingSources
  tools := mergeStringSlices personality.tools inst.tools
  allowedTools := mergeStringSlices personality.allowedTools inst.allowedTools
  disallowedTools := mergeStringSlices personality.disallowedTools inst.disallowedTools
  agents := mergeRawExtensionMap personality.agents inst.agents
  activeAgent := mergeStr personality.activeAgent inst.activeAgent
  persistentMode := mergeOpt personality.persistentMode inst.persistentMode
  includePartialMessages := mergeOpt personality.includePartialMessages inst.includePartialMessages
  noSessionPersistence := mergeOpt personality.noSessionPersistence inst.noSessionPersistence

/-- merge.go `MergePersonalityIntoInstance` (written functionally: the Go
code mutates the inst spec in place and this returns the mutated
value; fields the merge never touches are carried over unchanged). -/
def mergePersonalityIntoInstance (personality : KlausPersonalitySpec)
    (inst : KlausInstanceSpec) : KlausInstanceSpec where
  personalityRef := inst.personalityRef
  owner := inst.owner
  claude := mergeClaudeConfig personality.claude inst.claude
  plugins := mergePlugins personality.plugins inst.plugins
  pluginDirs := mergeStringSlices personality.pluginDirs inst.pluginDirs
  mcpServers := mergeMCPServerRefs personality.mcpServers inst.mcpServers
  skills := mergeSkillsMap personality.skills inst.skills
  agentFiles := mergeAgentFilesMap personality.agentFiles inst.agentFiles
  hooks := mergeRawExtensionMap personality.hooks inst.hooks
  hookScripts := mergeStringMap personality.hookScripts inst.hookScripts
  addDirs := mergeStringSlices personality.addDirs inst.addDirs
  loadAdditionalDirsMemory :=
    mergeOpt personality.loadAdditionalDirsMemory inst.loadAdditionalDirsMemory
  workspace := inst.workspace
  resources := mergeOpt personality.resources inst.resources
  telemetry := mergeOpt personality.telemetry inst.telemetry
  muster := inst.muster

/-- Reading a merged inst spec back as a personality-shaped bundle:
the spec's `Merge(Merge(base, override), override)` places the merged
bundle in the template position, which carries exactly the
configuration-bundle fields (owner/workspace/muster are per-instance and
the merge never reads the personality's description or image). -/
def instanceAsPersonality (s : KlausInstanceSpec) : KlausPersonalitySpec where
  description := ""
  image := ""
  claude := s.claude
  plugins := s.plugins
  pluginDirs := s.pluginDirs
  mcpServers := s.mcpServers
  skills := s.skills
  agentFiles := s.agentFiles
  hooks := s.hooks
  hookScripts := s.hookScripts
  addDirs := s.addDirs
  loadAdditionalDirsMemory := s.loadAdditionalDirsMemory
  resources := s.resources
  telemetry := s.telemetry

/-! ## Characterization lemmas for the keyed list merges -/

/-- First entry of a list with a given identity key. -/
def findBy {α : Type} (key : α → String) (k : String) : List α → Option α
  | [] => none
  | x :: t => if key x = k then some x else findBy key k t

theorem ofirst_assoc {V : Type} (a b c : Option V) :
    ofirst (ofirst a b) c = ofirst a (ofirst b c) := by
  cases a <;> cases b <;> rfl

theorem findBy_append {α : Type} (key : α → String) (k : String) (l₁ l₂ : List α) :
    findBy key k (l₁ ++ l₂) = ofirst (findBy key k l₁) (findBy key k l₂) := by
  induction l₁ with
  | nil => simp [findBy]
  | cons x t ih =>
    by_cases hx : key x = k
    · simp [findBy, hx]
    · simp [findBy, hx, ih]

theorem findBy_eq_none_iff {α : Type} (key : α → String) (k : String) (l : List α) :
    findBy key k l = none ↔ k ∉ l.map key := by
  induction l with
  | nil => simp [findBy]
  | cons x t ih =>
    by_cases hx : key x = k
    · simp [findBy, hx]
    · simp [findBy, hx, ih, Ne.symm hx]

theorem findBy_mem_of_some {α : Type} (key : α → String) (k : String) (l : List α)
    (x : α) (h : findBy key k l = some x) : x ∈ l ∧ key x = k := by
  induction l with
  | nil => cases h
  | cons y t ih =>
    rw [findBy] at h
    by_cases hy : key y = k
    · rw [if_pos hy] at h
      cases h
      exact ⟨List.mem_cons_self _ _, hy⟩
    · rw [if_neg hy] at h
      obtain ⟨hmem, hk⟩ := ih h
      exact ⟨List.mem_cons_of_mem _ hmem, hk⟩

theorem findBy_reverse_of_nodup {α : Type} (key : α → String) (k : String)
    (l : List α) (h : (l.map key).Nodup) :
    findBy key k l.reverse = findBy key k l := by
  induction l with
  | nil => rfl
  | cons x t ih =>
    rw [List.map_cons, List.nodup_cons] at h
    rw [List.reverse_cons, findBy_append, ih h.2]
    by_cases hx : key x = k
    · subst hx
      have hnone : findBy key (key x) t = none := (findBy_eq_none_iff _ _ _).mpr h.1
      rw [hnone]
      simp [findBy]
    · cases hfind : findBy key k t with
      | none => simp [findBy, hx, hfind, ofirst]
      | some y => simp [findBy, hx, hfind, ofirst]

/-- Key sequence kept by a first-occurrence-wins pass. -/
def firstKeys : List String → List String → List String
  | _, [] => []
  | seen, k :: t => if k ∈ seen then firstKeys seen t else k :: firstKeys (k :: seen) t

theorem firstKeys_congr (s₁ s₂ : List String) (l : List String)
    (h : ∀ k, k ∈ s₁ ↔ k ∈ s₂) : firstKeys s₁ l = firstKeys s₂ l := by
  induction l generalizing s₁ s₂ with
  | nil => rfl
  | cons k t ih =>
    by_cases hk : k ∈ s₁
    · rw [firstKeys, if_pos hk, firstKeys, if_pos ((h k).mp hk)]
      exact ih _ _ h
    · rw [firstKeys, if_neg hk, firstKeys, if_neg (fun hc => hk ((h k).mpr hc))]
      rw [ih (k :: s₁) (k :: s₂) (fun q => by simp [h q])]

theorem mem_firstKeys (seen : List String) (l : List String) (k : String) :
    k ∈ firstKeys seen l ↔ k ∈ l ∧ k ∉ seen := by
  induction l generalizing seen with
  | nil => simp [firstKeys]
  | cons k₂ t ih =>
    by_cases hk : k₂ ∈ seen
    · rw [firstKeys, if_pos hk, ih]
      constructor
      · rintro ⟨hm, hs⟩
        exact ⟨List.mem_cons_of_mem _ hm, hs⟩
      · rintro ⟨hm, hs⟩
        rcases List.mem_cons.mp hm with hm | hm
        · subst hm; exact absurd hk hs
        · exact ⟨hm, hs⟩
    · rw [firstKeys, if_neg hk]
      constructor
      · intro hm
        rcases List.mem_cons.mp hm with hm | hm
        · subst hm; exact ⟨List.mem_cons_self _ _, hk⟩
        · rw [ih] at hm
          refine ⟨List.mem_cons_of_mem _ hm.1, fun hc => hm.2 (List.mem_cons_of_mem _ hc)⟩
      · rintro ⟨hm, hs⟩
        rcases List.mem_cons.mp hm with hm | hm
        · subst hm; exact List.mem_cons_self _ _
        · by_cases hkk : k = k₂
          · subst hkk; exact List.mem_cons_self _ _
          · exact List.mem_cons_of_mem _ ((ih _).mpr ⟨hm, by simp [hkk, hs]⟩)

theorem firstKeys_nodup (seen : List String) (l : List String) :
    (firstKeys seen l).Nodup := by
  induction l generalizing seen with
  | nil => simp [firstKeys]
  | cons k t ih =>
    by_cases hk : k ∈ seen
    · rw [firstKeys, if_pos hk]; exact ih seen
    · rw [firstKeys, if_neg hk]
      refine List.nodup_cons.mpr ⟨?_, ih (k :: seen)⟩
      rw [mem_firstKeys]
      rintro ⟨_, hc⟩
      exact hc (List.mem_cons_self _ _)

theorem firstKeys_eq_nil (seen : List String) (l : List String)
    (h : ∀ k ∈ l, k ∈ seen) : firstKeys seen l = [] := by
  induction l with
  | nil => rfl
  | cons k t ih =>
    rw [firstKeys, if_pos (h k (List.mem_cons_self _ _))]
    exact ih (fun q hq => h q (List.mem_cons_of_mem _ hq))

theorem firstKeys_of_nodup (seen : List String) (l : List String)
    (hn : l.Nodup) (hd : ∀ k ∈ l, k ∉ seen) : firstKeys seen l = l := by
  induction l generalizing seen with
  | nil => rfl
  | cons k t ih =>
    rw [List.nodup_cons] at hn
    rw [firstKeys, if_neg (hd k (List.mem_cons_self _ _))]
    rw [ih _ hn.2 (fun q hq => by
      simp only [List.mem_cons]
      push_neg
      exact ⟨fun hc => hn.1 (hc ▸ hq), hd q (List.mem_cons_of_mem _ hq)⟩)]

theorem passBase_snd_mem {α : Type} (key : α → String) (seen : List String)
    (l : List α) (k : String) :
    k ∈ (passBase key seen l).2 ↔ k ∈ l.map key ∨ k ∈ seen := by
  induction l generalizing seen with
  | nil => simp [passBase]
  | cons x t ih =>
    by_cases hx : key x ∈ seen
    · rw [passBase, if_pos hx, ih]
      simp only [List.map_cons, List.mem_cons]
      constructor
      · rintro (h | h)
        · exact Or.inl (Or.inr h)
        · exact Or.inr h
      · rintro ((rfl | h) | h)
        · exact Or.inr hx
        · exact Or.inl h
        · exact Or.inr h
    · rw [passBase, if_neg hx, ih]
      simp only [List.map_cons, List.mem_cons]
      constructor
      · rintro (h | (rfl | h))
        · exact Or.inl (Or.inr h)
        · exact Or.inl (Or.inl rfl)
        · exact Or.inr h
      · rintro ((rfl | h) | h)
        · exact Or.inr (Or.inl rfl)
        · exact Or.inl h
        · exact Or.inr (Or.inr h)

theorem passBase_fst_findBy {α : Type} (key : α → String) (seen : List String)
    (l : List α) (k : String) :
    findBy key k (passBase key seen l).1 =
      if k ∈ seen then none else findBy key k l := by
  induction l generalizing seen with
  | nil => simp [passBase, findBy]
  | cons x t ih =>
    by_cases hx : key x ∈ seen
    · rw [passBase, if_pos hx, ih]
      by_cases hk : k ∈ seen
      · simp [hk]
      · have hxk : key x ≠ k := fun hc => hk (hc ▸ hx)
        simp [hk, findBy, hxk]
    · rw [passBase, if_neg hx]
      rw [findBy]
      by_cases hxk : key x = k
      · subst hxk
        rw [if_pos rfl, if_neg hx, findBy, if_pos rfl]
      · rw [if_neg hxk, ih]
        have hne : (k = key x) = False := eq_false (fun hc => hxk hc.symm)
        by_cases hk : k ∈ seen
        · simp [List.mem_cons, hne, hk]
        · simp [List.mem_cons, hne, hk, findBy, hxk]

theorem passBase_fst_keys {α : Type} (key : α → String) (seen : List String)
    (l : List α) :
    (passBase key seen l).1.map key = firstKeys seen (l.map key) := by
  induction l generalizing seen with
  | nil => simp [passBase, firstKeys]
  | cons x t ih =>
    by_cases hx : key x ∈ seen
    · rw [passBase, if_pos hx, List.map_cons, firstKeys, if_pos hx, ih]
    · rw [passBase, if_neg hx]
      simp only [List.map_cons]
      rw [firstKeys, if_neg hx, ih]

theorem passBase_fst_of_nodup {α : Type} (key : α → String) (seen : List String)
    (l : List α) (hn : (l.map key).Nodup) (hd : ∀ x ∈ l, key x ∉ seen) :
    (passBase key seen l).1 = l := by
  induction l generalizing seen with
  | nil => rfl
  | cons x t ih =>
    rw [List.map_cons, List.nodup_cons] at hn
    rw [passBase, if_neg (hd x (List.mem_cons_self _ _))]
    simp only []
    rw [ih _ hn.2 (fun y hy => by
      simp only [List.mem_cons]
      push_neg
      refine ⟨fun hc => hn.1 (hc ▸ List.mem_map_of_mem key hy), hd y (List.mem_cons_of_mem _ hy)⟩)]

theorem ofirst_none_right {V : Type} (a : Option V) : ofirst a none = a := by
  cases a <;> rfl

theorem replaceFirstBy_map_key {α : Type} (key : α → String) (x : α) (m : List α) :
    (replaceFirstBy key x m).map key = m.map key := by
  induction m with
  | nil => rfl
  | cons y t ih =>
    by_cases hy : key y = key x
    · rw [replaceFirstBy, if_pos hy]
      simp [hy]
    · rw [replaceFirstBy, if_neg hy]
      simp [ih]

theorem findBy_replaceFirstBy {α : Type} (key : α → String) (k : String) (x : α)
    (m : List α) (hmem : key x ∈ m.map key) :
    findBy key k (replaceFirstBy key x m) =
      if k = key x then some x else findBy key k m := by
  induction m with
  | nil => simp at hmem
  | cons y t ih =>
    by_cases hy : key y = key x
    · rw [replaceFirstBy, if_pos hy, findBy]
      by_cases hk : k = key x
      · rw [if_pos (hk ▸ rfl), if_pos hk]
      · rw [if_neg (fun hc => hk hc.symm), if_neg hk, findBy,
          if_neg (fun hc => hk (hc.symm.trans hy))]
    · have hmem₂ : key x ∈ t.map key := by
        rw [List.map_cons, List.mem_cons] at hmem
        exact hmem.resolve_left (fun hc => hy hc.symm)
      rw [replaceFirstBy, if_neg hy, findBy]
      by_cases hyk : key y = k
      · have hk : k ≠ key x := fun hc => hy (hyk.trans hc)
        rw [if_pos hyk, if_neg hk, findBy, if_pos hyk]
      · rw [if_neg hyk, ih hmem₂]
        by_cases hk : k = key x
        · rw [if_pos hk, if_pos hk]
        · rw [if_neg hk, if_neg hk, findBy, if_neg hyk]

theorem passOverlayDrop_eq {α : Type} (key : α → String) (o : List α)
    (seen : List String) (m : List α) :
    passOverlayDrop key seen m o = m ++ (passBase key seen o).1 := by
  induction o generalizing seen m with
  | nil => simp [passOverlayDrop, passBase]
  | cons x t ih =>
    by_cases hx : key x ∈ seen
    · rw [passOverlayDrop, if_pos hx, passBase, if_pos hx, ih]
    · rw [passOverlayDrop, if_neg hx, passBase, if_neg hx, ih]
      simp

theorem passOverlayReplace_findBy {α : Type} (key : α → String) (o : List α)
    (seen : List String) (m : List α) (k : String)
    (hinv : ∀ q, q ∈ seen ↔ q ∈ m.map key) :
    findBy key k (passOverlayReplace key seen m o) =
      ofirst (findBy key k o.reverse) (findBy key k m) := by
  induction o generalizing seen m with
  | nil => simp [passOverlayReplace, findBy]
  | cons x t ih =>
    have hrev : findBy key k ((x :: t).reverse) =
        ofirst (findBy key k t.reverse) (if key x = k then some x else none) := by
      rw [List.reverse_cons, findBy_append]
      by_cases hxk : key x = k <;> simp [findBy, hxk]
    by_cases hx : key x ∈ seen
    · have hmem : key x ∈ m.map key := (hinv _).mp hx
      rw [passOverlayReplace, if_pos hx,
        ih seen (replaceFirstBy key x m)
          (fun q => (hinv q).trans (by rw [replaceFirstBy_map_key])),
        findBy_replaceFirstBy key k x m hmem, hrev, ofirst_assoc]
      by_cases hk : k = key x
      · rw [if_pos hk, if_pos (hk ▸ rfl)]
        rfl
      · rw [if_neg hk, if_neg (fun hc => hk hc.symm)]
        rfl
    · have hnm : key x ∉ m.map key := fun hc => hx ((hinv _).mpr hc)
      rw [passOverlayReplace, if_neg hx,
        ih (key x :: seen) (m ++ [x]) (fun q => by
          rw [List.map_append, List.mem_append, List.mem_cons, hinv q]
          simp [findBy, Or.comm]),
        findBy_append, hrev, ofirst_assoc]
      by_cases hxk : key x = k
      · have hmn : findBy key k m = none := by
          rw [findBy_eq_none_iff]
          exact hxk ▸ hnm
        rw [hmn, if_pos hxk]
        simp [findBy, hxk]
      · rw [if_neg hxk]
        simp [findBy, hxk, ofirst_none_right]

theorem passOverlayReplace_map_key {α : Type} (key : α → String) (o : List α)
    (seen : List String) (m : List α)
    (hinv : ∀ q, q ∈ seen ↔ q ∈ m.map key) :
    (passOverlayReplace key seen m o).map key =
      m.map key ++ firstKeys seen (o.map key) := by
  induction o generalizing seen m with
  | nil => simp [passOverlayReplace, firstKeys]
  | cons x t ih =>
    by_cases hx : key x ∈ seen
    · rw [passOverlayReplace, if_pos hx,
        ih seen (replaceFirstBy key x m)
          (fun q => (hinv q).trans (by rw [replaceFirstBy_map_key])),
        replaceFirstBy_map_key]
      simp only [List.map_cons]
      rw [firstKeys, if_pos hx]
    · rw [passOverlayReplace, if_neg hx,
        ih (key x :: seen) (m ++ [x]) (fun q => by
          rw [List.map_append, List.mem_append, List.mem_cons, hinv q]
          simp [Or.comm])]
      simp only [List.map_append, List.map_cons, List.map_nil]
      rw [firstKeys, if_neg hx]
      simp

theorem findBy_ext {α : Type} (key : α → String) (l₁ l₂ : List α)
    (hk : l₁.map key = l₂.map key) (hn : (l₁.map key).Nodup)
    (hf : ∀ k, findBy key k l₁ = findBy key k l₂) : l₁ = l₂ := by
  induction l₁ generalizing l₂ with
  | nil =>
    cases l₂ with
    | nil => rfl
    | cons y t₂ => simp at hk
  | cons x t ih =>
    cases l₂ with
    | nil => simp at hk
    | cons y t₂ =>
      simp only [List.map_cons, List.cons.injEq] at hk
      obtain ⟨hxy, htk⟩ := hk
      have hxval : x = y := by
        have h := hf (key x)
        rw [findBy, if_pos rfl, findBy, if_pos hxy.symm] at h
        exact Option.some_inj.mp h
      subst hxval
      rw [List.map_cons, List.nodup_cons] at hn
      have htails : ∀ k, findBy key k t = findBy key k t₂ := by
        intro k
        by_cases hkx : k = key x
        · subst hkx
          rw [(findBy_eq_none_iff _ _ _).mpr hn.1,
            (findBy_eq_none_iff _ _ _).mpr (htk ▸ hn.1)]
        · have h := hf k
          rw [findBy, if_neg (fun hc => hkx hc.symm), findBy,
            if_neg (fun hc => hkx hc.symm)] at h
          exact h
      rw [ih t₂ htk hn.2 htails]

/-! ## Behaviour of the keyed merges -/

theorem ofirst_idem {V : Type} (a c : Option V) : ofirst a (ofirst a c) = ofirst a c := by
  cases a <;> rfl

theorem ofirst_absorb {V : Type} (a c : Option V) : ofirst (ofirst a c) c = ofirst a c := by
  cases a <;> cases c <;> rfl

theorem isEmpty_false_of_ne_nil {α : Type} (l : List α) (h : l ≠ []) :
    l.isEmpty = false := by
  cases l with
  | nil => exact absurd rfl h
  | cons x t => rfl

theorem mergeKeyedReplace_nil_right {α : Type} (key : α → String) (b : List α) :
    mergeKeyedReplace key b [] = b := by
  cases b <;> rfl

theorem mergeKeyedDrop_nil_right {α : Type} (key : α → String) (b : List α) :
    mergeKeyedDrop key b [] = b := by
  cases b <;> rfl

theorem mergeKeyedReplace_nil_left {α : Type} (key : α → String) (o : List α) :
    mergeKeyedReplace key [] o = o := rfl

theorem mergeKeyedDrop_nil_left {α : Type} (key : α → String) (o : List α) :
    mergeKeyedDrop key [] o = o := rfl

theorem passBase_inv {α : Type} (key : α → String) (b : List α) (q : String) :
    q ∈ (passBase key [] b).2 ↔ q ∈ (passBase key [] b).1.map key := by
  rw [passBase_snd_mem, passBase_fst_keys, mem_firstKeys]
  simp

theorem mergeKeyedReplace_findBy {α : Type} (key : α → String) (b o : List α)
    (hb : b ≠ []) (ho : o ≠ []) (k : String) :
    findBy key k (mergeKeyedReplace key b o) =
      ofirst (findBy key k o.reverse) (findBy key k b) := by
  rw [mergeKeyedReplace, if_neg (by rw [isEmpty_false_of_ne_nil b hb]; exact Bool.false_ne_true),
    if_neg (by rw [isEmpty_false_of_ne_nil o ho]; exact Bool.false_ne_true)]
  rw [passOverlayReplace_findBy key o _ _ k (passBase_inv key b),
    passBase_fst_findBy]
  simp

theorem mergeKeyedReplace_keys {α : Type} (key : α → String) (b o : List α)
    (hb : b ≠ []) (ho : o ≠ []) :
    (mergeKeyedReplace key b o).map key =
      firstKeys [] (b.map key) ++ firstKeys (b.map key) (o.map key) := by
  rw [mergeKeyedReplace, if_neg (by rw [isEmpty_false_of_ne_nil b hb]; exact Bool.false_ne_true),
    if_neg (by rw [isEmpty_false_of_ne_nil o ho]; exact Bool.false_ne_true)]
  rw [passOverlayReplace_map_key key o _ _ (passBase_inv key b), passBase_fst_keys,
    firstKeys_congr ((passBase key [] b).2) (b.map key) (o.map key) (fun q => by
      rw [passBase_snd_mem]
      simp)]

theorem mergeKeyedDrop_findBy {α : Type} (key : α → String) (b o : List α)
    (hb : b ≠ []) (ho : o ≠ []) (k : String) :
    findBy key k (mergeKeyedDrop key b o) =
      ofirst (findBy key k b) (findBy key k o) := by
  rw [mergeKeyedDrop, if_neg (by rw [isEmpty_false_of_ne_nil b hb]; exact Bool.false_ne_true),
    if_neg (by rw [isEmpty_false_of_ne_nil o ho]; exact Bool.false_ne_true)]
  rw [passOverlayDrop_eq, findBy_append, passBase_fst_findBy, passBase_fst_findBy]
  simp only [List.not_mem_nil, if_false]
  cases hfb : findBy key k b with
  | some y => rfl
  | none =>
    have hk : k ∉ b.map key := (findBy_eq_none_iff key k b).mp hfb
    rw [if_neg (fun hc => by
      rcases (passBase_snd_mem key [] b k).mp hc with h | h
      · exact hk h
      · exact List.not_mem_nil k h)]

theorem mergeKeyedDrop_keys {α : Type} (key : α → String) (b o : List α)
    (hb : b ≠ []) (ho : o ≠ []) :
    (mergeKeyedDrop key b o).map key =
      firstKeys [] (b.map key) ++ firstKeys (b.map key) (o.map key) := by
  rw [mergeKeyedDrop, if_neg (by rw [isEmpty_false_of_ne_nil b hb]; exact Bool.false_ne_true),
    if_neg (by rw [isEmpty_false_of_ne_nil o ho]; exact Bool.false_ne_true)]
  rw [passOverlayDrop_eq, List.map_append, passBase_fst_keys, passBase_fst_keys,
    firstKeys_congr ((passBase key [] b).2) (b.map key) (o.map key) (fun q => by
      rw [passBase_snd_mem]
      simp)]

theorem mergedKeys_nodup (A B : List String) :
    (firstKeys [] A ++ firstKeys A B).Nodup := by
  rw [List.nodup_append]
  refine ⟨firstKeys_nodup _ _, firstKeys_nodup _ _, ?_⟩
  intro q hq hq₂
  rw [mem_firstKeys] at hq hq₂
  exact hq₂.2 hq.1

theorem mem_mergedKeys (A B : List String) (q : String) :
    q ∈ firstKeys [] A ++ firstKeys A B ↔ q ∈ A ∨ q ∈ B := by
  rw [List.mem_append, mem_firstKeys, mem_firstKeys]
  constructor
  · rintro (h | h)
    · exact Or.inl h.1
    · exact Or.inr h.1
  · rintro (h | h)
    · exact Or.inl ⟨h, List.not_mem_nil q⟩
    · by_cases hA : q ∈ A
      · exact Or.inl ⟨hA, List.not_mem_nil q⟩
      · exact Or.inr ⟨h, hA⟩

theorem firstKeys_nil_cons (a : String) (l : List String) :
    firstKeys [] (a :: l) = a :: firstKeys [a] l := by
  rw [firstKeys, if_neg (List.not_mem_nil a)]

theorem mergeKeyedReplace_idem {α : Type} (key : α → String) (b o : List α)
    (h : b = [] → (o.map key).Nodup) :
    mergeKeyedReplace key (mergeKeyedReplace key b o) o = mergeKeyedReplace key b o := by
  by_cases ho : o = []
  · subst ho
    rw [mergeKeyedReplace_nil_right, mergeKeyedReplace_nil_right]
  by_cases hb : b = []
  · subst hb
    rw [mergeKeyedReplace_nil_left]
    have hn := h rfl
    refine findBy_ext key _ _ ?_ ?_ ?_
    · rw [mergeKeyedReplace_keys key o o ho ho, firstKeys_of_nodup [] _ hn
        (fun q _ => List.not_mem_nil q), firstKeys_eq_nil _ _ (fun q hq => hq),
        List.append_nil]
    · rw [mergeKeyedReplace_keys key o o ho ho, firstKeys_of_nodup [] _ hn
        (fun q _ => List.not_mem_nil q), firstKeys_eq_nil _ _ (fun q hq => hq),
        List.append_nil]
      exact hn
    · intro k
      rw [mergeKeyedReplace_findBy key o o ho ho, findBy_reverse_of_nodup key k o hn]
      cases findBy key k o <;> rfl
  · have hm_keys := mergeKeyedReplace_keys key b o hb ho
    have hm_nodup : ((mergeKeyedReplace key b o).map key).Nodup := by
      rw [hm_keys]; exact mergedKeys_nodup _ _
    have hm_ne : mergeKeyedReplace key b o ≠ [] := by
      intro hc
      obtain ⟨x, t, rfl⟩ : ∃ x t, b = x :: t := by
        cases b with
        | nil => exact absurd rfl hb
        | cons x t => exact ⟨x, t, rfl⟩
      rw [hc] at hm_keys
      rw [List.map_cons, firstKeys_nil_cons] at hm_keys
      simp at hm_keys
    have hmem : ∀ q, q ∈ (mergeKeyedReplace key b o).map key ↔ q ∈ b.map key ∨ q ∈ o.map key := by
      intro q
      rw [hm_keys]
      exact mem_mergedKeys _ _ q
    have hkeq : (mergeKeyedReplace key (mergeKeyedReplace key b o) o).map key =
        (mergeKeyedReplace key b o).map key := by
      rw [mergeKeyedReplace_keys key _ o hm_ne ho,
        firstKeys_of_nodup [] _ hm_nodup (fun q _ => List.not_mem_nil q),
        firstKeys_eq_nil _ _ (fun q hq => (hmem q).mpr (Or.inr hq)), List.append_nil]
    refine findBy_ext key _ _ hkeq (hkeq ▸ hm_nodup) ?_
    intro k
    rw [mergeKeyedReplace_findBy key _ o hm_ne ho,
      mergeKeyedReplace_findBy key b o hb ho, ofirst_idem]

theorem mergeKeyedDrop_idem {α : Type} (key : α → String) (b o : List α)
    (h : b = [] → (o.map key).Nodup) :
    mergeKeyedDrop key (mergeKeyedDrop key b o) o = mergeKeyedDrop key b o := by
  by_cases ho : o = []
  · subst ho
    rw [mergeKeyedDrop_nil_right, mergeKeyedDrop_nil_right]
  by_cases hb : b = []
  · subst hb
    rw [mergeKeyedDrop_nil_left]
    have hn := h rfl
    refine findBy_ext key _ _ ?_ ?_ ?_
    · rw [mergeKeyedDrop_keys key o o ho ho, firstKeys_of_nodup [] _ hn
        (fun q _ => List.not_mem_nil q), firstKeys_eq_nil _ _ (fun q hq => hq),
        List.append_nil]
    · rw [mergeKeyedDrop_keys key o o ho ho, firstKeys_of_nodup [] _ hn
        (fun q _ => List.not_mem_nil q), firstKeys_eq_nil _ _ (fun q hq => hq),
        List.append_nil]
      exact hn
    · intro k
      rw [mergeKeyedDrop_findBy key o o ho ho]
      cases findBy key k o <;> rfl
  · have hm_keys := mergeKeyedDrop_keys key b o hb ho
    have hm_nodup : ((mergeKeyedDrop key b o).map key).Nodup := by
      rw [hm_keys]; exact mergedKeys_nodup _ _
    have hm_ne : mergeKeyedDrop key b o ≠ [] := by
      intro hc
      obtain ⟨x, t, rfl⟩ : ∃ x t, b = x :: t := by
        cases b with
        | nil => exact absurd rfl hb
        | cons x t => exact ⟨x, t, rfl⟩
      rw [hc] at hm_keys
      rw [List.map_cons, firstKeys_nil_cons] at hm_keys
      simp at hm_keys
    have hmem : ∀ q, q ∈ (mergeKeyedDrop key b o).map key ↔ q ∈ b.map key ∨ q ∈ o.map key := by
      intro q
      rw [hm_keys]
      exact mem_mergedKeys _ _ q
    have hkeq : (mergeKeyedDrop key (mergeKeyedDrop key b o) o).map key =
        (mergeKeyedDrop key b o).map key := by
      rw [mergeKeyedDrop_keys key _ o hm_ne ho,
        firstKeys_of_nodup [] _ hm_nodup (fun q _ => List.not_mem_nil q),
        firstKeys_eq_nil _ _ (fun q hq => (hmem q).mpr (Or.inr hq)), List.append_nil]
    refine findBy_ext key _ _ hkeq (hkeq ▸ hm_nodup) ?_
    intro k
    rw [mergeKeyedDrop_findBy key _ o hm_ne ho,
      mergeKeyedDrop_findBy key b o hb ho, ofirst_absorb]

/-! ## Behaviour of the map and scalar merges -/

theorem slookup_reverse_of_keySorted {V : Type} (q : String) (l : List (String × V))
    (h : KeySorted l) : slookup q l.reverse = slookup q l := by
  induction l with
  | nil => rfl
  | cons hd t ih =>
    obtain ⟨k, v⟩ := hd
    rw [KeySorted, List.pairwise_cons] at h
    rw [List.reverse_cons, slookup_append, ih h.2]
    by_cases hq : q = k
    · subst hq
      rw [slookup_eq_none q t (fun p hp => fun hc => lt_irrefl _ (hc ▸ h.1 p hp))]
      simp [slookup]
    · rw [slookup, if_neg hq]
      cases hft : slookup q t <;> simp [slookup, hq, ofirst, hft]

theorem smap_isEmpty_true {V : Type} (m : Smap V) (h : m.1 = []) :
    Smap.isEmpty m = true := by
  rw [Smap.isEmpty, h]
  rfl

theorem smap_isEmpty_false {V : Type} (m : Smap V) (h : m.1 ≠ []) :
    Smap.isEmpty m = false := by
  rw [Smap.isEmpty, isEmpty_false_of_ne_nil m.1 h]

theorem smap_lookup_nil {V : Type} (q : String) (m : Smap V) (h : m.1 = []) :
    Smap.lookup q m = none := by
  rw [Smap.lookup, h]
  rfl

theorem mergeGoMap_lookup {V : Type} (b o : Smap V) (q : String) :
    Smap.lookup q (mergeGoMap b o) = ofirst (Smap.lookup q o) (Smap.lookup q b) := by
  by_cases hb : b.1 = []
  · rw [mergeGoMap, if_pos (smap_isEmpty_true b hb), smap_lookup_nil q b hb,
      ofirst_none_right]
  · by_cases ho : o.1 = []
    · rw [mergeGoMap, if_neg (by rw [smap_isEmpty_false b hb]; exact Bool.false_ne_true),
        if_pos (smap_isEmpty_true o ho), smap_lookup_nil q o ho, ofirst_none]
    · rw [mergeGoMap, if_neg (by rw [smap_isEmpty_false b hb]; exact Bool.false_ne_true),
        if_neg (by rw [smap_isEmpty_false o ho]; exact Bool.false_ne_true)]
      show slookup q (sfold (sfold [] b.1) o.1) = _
      rw [slookup_sfold, slookup_reverse_of_keySorted q o.1 o.2, slookup_sfold,
        slookup_reverse_of_keySorted q b.1 b.2]
      rw [Smap.lookup, Smap.lookup]
      cases slookup q o.1 <;> cases slookup q b.1 <;> simp [slookup, ofirst]

theorem mergeGoMap_idem {V : Type} (b o : Smap V) :
    mergeGoMap (mergeGoMap b o) o = mergeGoMap b o := by
  apply Smap.ext_lookup
  intro q
  rw [mergeGoMap_lookup, mergeGoMap_lookup, ofirst_idem]

theorem mergeStr_idem (p i : String) : mergeStr (mergeStr p i) i = mergeStr p i := by
  by_cases h : i = "" <;> simp [mergeStr, h]

theorem mergeOpt_idem {α : Type} (p i : Option α) :
    mergeOpt (mergeOpt p i) i = mergeOpt p i := by
  cases i <;> rfl

theorem mergeStringSlices_nil_right (p : List String) : mergeStringSlices p [] = p := by
  cases p <;> rfl

theorem mergeStringSlices_nil_idem (a : List String) :
    mergeStringSlices (mergeStringSlices a []) [] = mergeStringSlices a [] := by
  rw [mergeStringSlices_nil_right]

/-! ## Go zero values of the embedded structures -/

def emptyClaudeConfig : ClaudeConfig where
  model := ""
  maxTurns := none
  permissionMode := ""
  systemPrompt := ""
  appendSystemPrompt := ""
  mcpServers := Smap.ofList []
  mcpServerSecrets := []
  mcpTimeout := none
  maxMCPOutputTokens := none
  strictMCPConfig := none
  maxBudgetUSD := none
  effort := ""
  fallbackModel := ""
  jsonSchema := ""
  settingsFile := ""
  settingSources := ""
  tools := []
  allowedTools := []
  disallowedTools := []
  agents := Smap.ofList []
  activeAgent := ""
  persistentMode := none
  includePartialMessages := none
  noSessionPersistence := none

def emptyInstanceSpec : KlausInstanceSpec where
  personalityRef := none
  owner := ""
  claude := emptyClaudeConfig
  plugins := []
  pluginDirs := []
  mcpServers := []
  skills := Smap.ofList []
  agentFiles := Smap.ofList []
  hooks := Smap.ofList []
  hookScripts := Smap.ofList []
  addDirs := []
  loadAdditionalDirsMemory := none
  workspace := none
  resources := none
  telemetry := none
  muster := none

def emptyPersonalitySpec : KlausPersonalitySpec where
  description := ""
  image := ""
  claude := emptyClaudeConfig
  plugins := []
  pluginDirs := []
  mcpServers := []
  skills := Smap.ofList []
  agentFiles := Smap.ofList []
  hooks := Smap.ofList []
  hookScripts := Smap.ofList []
  addDirs := []
  loadAdditionalDirsMemory := none
  resources := none
  telemetry := none

/-! ## Claim C1: the dedup law of the identity-keyed list merges -/

/-- C1, counterexample to the claim as stated: for credential-source lists
(`mergeMCPServerSecrets`, keyed by secret name) a key that appears in both
inputs keeps the BASE entry at the base position — it does not equal the
override's version as the claim asserts (the same holds for
shared-integration references; only plugin lists replace in place). -/
theorem c1_counterexample :
    mergeMCPServerSecrets
        [⟨"shared", Smap.ofList [("TOKEN_A", "key1")]⟩]
        [⟨"shared", Smap.ofList [("TOKEN_B", "key2")]⟩] =
      [⟨"shared", Smap.ofList [("TOKEN_A", "key1")]⟩] ∧
    (⟨"shared", Smap.ofList [("TOKEN_A", "key1")]⟩ : MCPServerSecret) ≠
      ⟨"shared", Smap.ofList [("TOKEN_B", "key2")]⟩ := by
  exact ⟨by decide, by decide⟩

/-- C1 (amended): when both inputs are non-empty, each identity-keyed merge
produces exactly one entry per distinct key; the merged key sequence is the
base's keys in first-occurrence order followed by the override's new keys,
so base entries keep their original positions.  For a key occurring in both
inputs, the entry at the base position is the override's last entry for
plugin lists (`mergePlugins`), but the base's first entry for
shared-integration references (`mergeMCPServerRefs`) and credential sources
(`mergeMCPServerSecrets`) — the override's duplicate is dropped.  When
either input is empty the other list is returned unchanged, so duplicate
keys inside a single input survive in that case. -/
theorem c1_merge_dedup_law
    (pb po : List PluginReference) (rb ro : List MCPServerReference)
    (sb so : List MCPServerSecret)
    (hpb : pb ≠ []) (hpo : po ≠ []) (hrb : rb ≠ []) (hro : ro ≠ [])
    (hsb : sb ≠ []) (hso : so ≠ []) :
    (∀ b : List PluginReference, mergePlugins b [] = b) ∧
    (∀ o : List PluginReference, mergePlugins [] o = o) ∧
    (∀ b : List MCPServerReference, mergeMCPServerRefs b [] = b) ∧
    (∀ o : List MCPServerReference, mergeMCPServerRefs [] o = o) ∧
    (∀ b : List MCPServerSecret, mergeMCPServerSecrets b [] = b) ∧
    (∀ o : List MCPServerSecret, mergeMCPServerSecrets [] o = o) ∧
    ((mergePlugins pb po).map (fun p => p.repository) =
        firstKeys [] (pb.map (fun p => p.repository)) ++
          firstKeys (pb.map (fun p => p.repository)) (po.map (fun p => p.repository))) ∧
    ((mergePlugins pb po).map (fun p => p.repository)).Nodup ∧
    (∀ k, findBy (fun p => p.repository) k (mergePlugins pb po) =
        ofirst (findBy (fun p => p.repository) k po.reverse)
          (findBy (fun p => p.repository) k pb)) ∧
    ((mergeMCPServerRefs rb ro).map (fun r => r.name) =
        firstKeys [] (rb.map (fun r => r.name)) ++
          firstKeys (rb.map (fun r => r.name)) (ro.map (fun r => r.name))) ∧
    ((mergeMCPServerRefs rb ro).map (fun r => r.name)).Nodup ∧
    (∀ k, findBy (fun r => r.name) k (mergeMCPServerRefs rb ro) =
        ofirst (findBy (fun r => r.name) k rb) (findBy (fun r => r.name) k ro)) ∧
    ((mergeMCPServerSecrets sb so).map (fun s => s.secretName) =
        firstKeys [] (sb.map (fun s => s.secretName)) ++
          firstKeys (sb.map (fun s => s.secretName)) (so.map (fun s => s.secretName))) ∧
    ((mergeMCPServerSecrets sb so).map (fun s => s.secretName)).Nodup ∧
    (∀ k, findBy (fun s => s.secretName) k (mergeMCPServerSecrets sb so) =
        ofirst (findBy (fun s => s.secretName) k sb)
          (findBy (fun s => s.secretName) k so)) := by
  refine ⟨fun b => mergeKeyedReplace_nil_right _ b, fun o => mergeKeyedReplace_nil_left _ o,
    fun b => mergeKeyedDrop_nil_right _ b, fun o => mergeKeyedDrop_nil_left _ o,
    fun b => mergeKeyedDrop_nil_right _ b, fun o => mergeKeyedDrop_nil_left _ o,
    mergeKeyedReplace_keys _ pb po hpb hpo, ?_,
    fun k => mergeKeyedReplace_findBy _ pb po hpb hpo k,
    mergeKeyedDrop_keys _ rb ro hrb hro, ?_,
    fun k => mergeKeyedDrop_findBy _ rb ro hrb hro k,
    mergeKeyedDrop_keys _ sb so hsb hso, ?_,
    fun k => mergeKeyedDrop_findBy _ sb so hsb hso k⟩
  · simp only [mergePlugins]
    rw [mergeKeyedReplace_keys _ pb po hpb hpo]
    exact mergedKeys_nodup _ _
  · simp only [mergeMCPServerRefs]
    rw [mergeKeyedDrop_keys _ rb ro hrb hro]
    exact mergedKeys_nodup _ _
  · simp only [mergeMCPServerSecrets]
    rw [mergeKeyedDrop_keys _ sb so hsb hso]
    exact mergedKeys_nodup _ _

theorem c1_merge_dedup_law_witness :
    ((mergePlugins [⟨"repo-a", "v1", ""⟩] [⟨"repo-a", "v2", ""⟩]).map
        (fun p => p.repository)).Nodup := by
  have h := c1_merge_dedup_law [⟨"repo-a", "v1", ""⟩] [⟨"repo-a", "v2", ""⟩]
      [⟨"m1"⟩] [⟨"m2"⟩] [⟨"s1", Smap.ofList []⟩] [⟨"s2", Smap.ofList []⟩]
      (by decide) (by decide) (by decide) (by decide) (by decide) (by decide)
  exact h.2.2.2.2.2.2.2.1

/-! ## Claim C3: idempotence of the personality-into-instance merge -/

theorem mergeClaudeConfig_idem (pc ic : ClaudeConfig)
    (ht : ic.tools = []) (ha : ic.allowedTools = []) (hd : ic.disallowedTools = [])
    (hs : pc.mcpServerSecrets = [] →
      (ic.mcpServerSecrets.map (fun s => s.secretName)).Nodup) :
    mergeClaudeConfig (mergeClaudeConfig pc ic) ic = mergeClaudeConfig pc ic := by
  apply ClaudeConfig.ext <;>
    simp only [mergeClaudeConfig] <;>
    first
      | exact mergeStr_idem _ _
      | exact mergeOpt_idem _ _
      | exact mergeGoMap_idem _ _
      | exact mergeKeyedDrop_idem _ _ _ hs
      | (rw [ht]; exact mergeStringSlices_nil_idem _)
      | (rw [ha]; exact mergeStringSlices_nil_idem _)
      | (rw [hd]; exact mergeStringSlices_nil_idem _)

/-- C3, counterexample to the claim as stated: idempotence fails for the
unordered (concatenated) list fields — re-merging appends the override's
entries a second time (here `addDirs` becomes `["docs", "extra", "extra"]`
instead of `["docs", "extra"]`). -/
theorem c3_counterexample :
    mergePersonalityIntoInstance
        (instanceAsPersonality (mergePersonalityIntoInstance
          { emptyPersonalitySpec with addDirs := ["docs"] }
          { emptyInstanceSpec with addDirs := ["extra"] }))
        { emptyInstanceSpec with addDirs := ["extra"] } ≠
      mergePersonalityIntoInstance { emptyPersonalitySpec with addDirs := ["docs"] }
        { emptyInstanceSpec with addDirs := ["extra"] } := by
  decide

/-- C3 (amended): `Merge(Merge(base, override), override) = Merge(base,
override)` holds for the scalar, optional/pointer, map, and identity-keyed
list field kinds, but not in general for the concatenated list fields: the
law holds exactly when the override's concatenated list fields
(`pluginDirs`, `addDirs`, `claude.tools`, `claude.allowedTools`,
`claude.disallowedTools`) are empty — and, for the identity-keyed lists,
excluding the degenerate case of an empty base list with duplicate keys
inside the override list (there the first merge returns the override
unchanged, so a second merge collapses its duplicate keys). -/
theorem c3_merge_idempotent (p : KlausPersonalitySpec) (i : KlausInstanceSpec)
    (h₁ : i.pluginDirs = []) (h₂ : i.addDirs = [])
    (h₃ : i.claude.tools = []) (h₄ : i.claude.allowedTools = [])
    (h₅ : i.claude.disallowedTools = [])
    (h₆ : p.plugins = [] → (i.plugins.map (fun x => x.repository)).Nodup)
    (h₇ : p.mcpServers = [] → (i.mcpServers.map (fun x => x.name)).Nodup)
    (h₈ : p.claude.mcpServerSecrets = [] →
      (i.claude.mcpServerSecrets.map (fun x => x.secretName)).Nodup) :
    mergePersonalityIntoInstance
        (instanceAsPersonality (mergePersonalityIntoInstance p i)) i =
      mergePersonalityIntoInstance p i := by
  apply KlausInstanceSpec.ext <;>
    simp only [mergePersonalityIntoInstance, instanceAsPersonality] <;>
    first
      | rfl
      | exact mergeClaudeConfig_idem p.claude i.claude h₃ h₄ h₅ h₈
      | exact mergeKeyedReplace_idem _ _ _ h₆
      | exact mergeKeyedDrop_idem _ _ _ h₇
      | exact mergeGoMap_idem _ _
      | exact mergeOpt_idem _ _
      | (rw [h₁]; exact mergeStringSlices_nil_idem _)
      | (rw [h₂]; exact mergeStringSlices_nil_idem _)

theorem c3_merge_idempotent_witness :
    mergePersonalityIntoInstance
        (instanceAsPersonality (mergePersonalityIntoInstance
          { emptyPersonalitySpec with plugins := [⟨"repo-a", "v1", ""⟩] }
          { emptyInstanceSpec with plugins := [⟨"repo-a", "v2", ""⟩] }))
        { emptyInstanceSpec with plugins := [⟨"repo-a", "v2", ""⟩] } =
      mergePersonalityIntoInstance
        { emptyPersonalitySpec with plugins := [⟨"repo-a", "v1", ""⟩] }
        { emptyInstanceSpec with plugins := [⟨"repo-a", "v2", ""⟩] } :=
  c3_merge_idempotent _ _ (by decide) (by decide) (by decide) (by decide)
    (by decide) (fun h => by decide) (fun h => by decide) (fun h => by decide)

/-! ## Credential deduplication (internal/resources, DeduplicateMCPServerSecrets)

The Go function builds a map from env-var name to (secret name, key),
inline entries first and resolved entries overwriting on conflict, then
groups the bindings back by secret name and emits the groups in sorted
secret-name order. -/

structure SecretKeyRef where
  secretName : String
  key : String
  deriving DecidableEq

def Smap.insert {V : Type} (k : String) (v : V) (m : Smap V) : Smap V :=
  ⟨sinsert k v m.1, keySorted_sinsert k v m.1 m.2⟩

theorem Smap.lookup_insert {V : Type} (k q : String) (v : V) (m : Smap V) :
    Smap.lookup q (Smap.insert k v m) = if q = k then some v else Smap.lookup q m :=
  slookup_sinsert k q v m.1

/-- The env-var map accumulation loops of `DeduplicateMCPServerSecrets`:
for each secret in the list, insert each of its env bindings, overwriting
previous bindings for the same env-var name. -/
def envMapOf (l : List MCPServerSecret) (init : List (String × SecretKeyRef)) :
    List (String × SecretKeyRef) :=
  l.foldl (fun acc s =>
    sfold acc (s.env.1.map (fun p => (p.1, SecretKeyRef.mk s.secretName p.2)))) init

/-- The regrouping loop of `DeduplicateMCPServerSecrets`: distribute each
env-var binding into the group of its secret name. -/
def groupStep (acc : List (String × Smap String)) (p : String × SecretKeyRef) :
    List (String × Smap String) :=
  sinsert p.2.secretName
    (Smap.insert p.1 p.2.key
      (match slookup p.2.secretName acc with
        | some g => g
        | none => Smap.ofList [])) acc

def groupFold (l : List (String × SecretKeyRef)) : List (String × Smap String) :=
  l.foldl groupStep []

/-- resources `DeduplicateMCPServerSecrets` (the sorted-key emission of the
Go code is the sorted order `groupFold` maintains). -/
def DeduplicateMCPServerSecrets (inline resolved : List MCPServerSecret) :
    List MCPServerSecret :=
  if inline.isEmpty && resolved.isEmpty then []
  else
    (groupFold (envMapOf resolved (envMapOf inline []))).map
      (fun p => MCPServerSecret.mk p.1 p.2)

/-- Last env-var binding for `v` contributed by a secret list: the binding
the Go env map ends up with after inserting the list in order. -/
def lastBinding : List MCPServerSecret → String → Option SecretKeyRef
  | [], _ => none
  | s :: t, v =>
    ofirst (lastBinding t v)
      ((Smap.lookup v s.env).map (fun k => SecretKeyRef.mk s.secretName k))

/-- All (secret name, key) bindings that a result list holds for env-var `v`. -/
def bindingsFor (l : List MCPServerSecret) (v : String) : List (String × String) :=
  l.filterMap (fun e => (Smap.lookup v e.env).map (fun k => (e.secretName, k)))

theorem keySorted_map_snd {V W : Type} (g : V → W) (l : List (String × V))
    (h : KeySorted l) : KeySorted (l.map (fun p => (p.1, g p.2))) := by
  rw [KeySorted, List.pairwise_map]
  exact h.imp (fun hab => hab)

theorem slookup_map_snd {V W : Type} (g : V → W) (q : String)
    (l : List (String × V)) :
    slookup q (l.map (fun p => (p.1, g p.2))) = (slookup q l).map g := by
  induction l with
  | nil => rfl
  | cons hd t ih =>
    obtain ⟨k, v⟩ := hd
    by_cases hq : q = k <;> simp [slookup, hq, ih]

theorem keySorted_envMapOf (l : List MCPServerSecret)
    (init : List (String × SecretKeyRef)) (h : KeySorted init) :
    KeySorted (envMapOf l init) := by
  induction l generalizing init with
  | nil => exact h
  | cons s t ih => exact ih _ (keySorted_sfold _ _ h)

theorem envMapOf_lookup (l : List MCPServerSecret)
    (init : List (String × SecretKeyRef)) (v : String) :
    slookup v (envMapOf l init) = ofirst (lastBinding l v) (slookup v init) := by
  induction l generalizing init with
  | nil => simp [envMapOf, lastBinding]
  | cons s t ih =>
    rw [envMapOf, List.foldl_cons]
    have hstep := ih (sfold init (s.env.1.map (fun p => (p.1, SecretKeyRef.mk s.secretName p.2))))
    rw [envMapOf] at hstep
    rw [hstep, slookup_sfold,
      slookup_reverse_of_keySorted _ _ (keySorted_map_snd _ _ s.env.2),
      slookup_map_snd, lastBinding, ofirst_assoc]
    rfl

theorem keySorted_keys_nodup {V : Type} (l : List (String × V)) (h : KeySorted l) :
    (l.map (fun p => p.1)).Nodup := by
  have hp : (l.map (fun p => p.1)).Pairwise (fun a b => a ≠ b) := by
    rw [List.pairwise_map]
    exact h.imp (fun hab => ne_of_lt hab)
  exact hp

/-- Key bound for env-var `v` inside the group of secret `s`. -/
def lookup2 (acc : List (String × Smap String)) (s v : String) : Option String :=
  (slookup s acc).bind (fun g => slookup v g.1)

theorem lookup2_groupStep (acc : List (String × Smap String))
    (p : String × SecretKeyRef) (s v : String) :
    lookup2 (groupStep acc p) s v =
      if s = p.2.secretName ∧ v = p.1 then some p.2.key else lookup2 acc s v := by
  rw [lookup2, groupStep, slookup_sinsert]
  by_cases hs : s = p.2.secretName
  · rw [if_pos hs]
    have hlk := slookup_sinsert p.1 v p.2.key
      (match slookup p.2.secretName acc with
        | some g => g
        | none => Smap.ofList []).1
    by_cases hv : v = p.1
    · rw [Option.some_bind, Smap.insert, hlk, if_pos hv, if_pos ⟨hs, hv⟩]
    · rw [Option.some_bind, Smap.insert, hlk, if_neg hv, if_neg (fun hc => hv hc.2),
        lookup2, hs]
      cases hacc : slookup p.2.secretName acc with
      | some g => rfl
      | none => rfl
  · rw [if_neg hs, if_neg (fun hc => hs hc.1), lookup2]

theorem groupFold_go (l : List (String × SecretKeyRef)) :
    ∀ acc, (∀ p ∈ l, ∀ s, lookup2 acc s p.1 = none) →
    (l.map (fun p => p.1)).Nodup →
    ∀ s v, lookup2 (l.foldl groupStep acc) s v =
      ofirst ((slookup v l).bind
          (fun r => if r.secretName = s then some r.key else none))
        (lookup2 acc s v) := by
  induction l with
  | nil =>
    intro acc hdisj hnodup s v
    simp [slookup, ofirst]
  | cons p₀ t ih =>
    intro acc hdisj hnodup s v
    rw [List.map_cons, List.nodup_cons] at hnodup
    rw [List.foldl_cons]
    have hdisj₂ : ∀ p ∈ t, ∀ s₂, lookup2 (groupStep acc p₀) s₂ p.1 = none := by
      intro p hp s₂
      rw [lookup2_groupStep]
      rw [if_neg (show ¬(s₂ = p₀.2.secretName ∧ p.1 = p₀.1) from fun hc =>
        hnodup.1 (hc.2 ▸ List.mem_map_of_mem (fun x => x.1) hp))]
      exact hdisj p (List.mem_cons_of_mem _ hp) s₂
    rw [ih (groupStep acc p₀) hdisj₂ hnodup.2 s v, lookup2_groupStep, slookup]
    by_cases hv : v = p₀.1
    · have hvt : slookup v t = none := slookup_eq_none v t (fun p hp hc =>
        hnodup.1 (hv ▸ hc ▸ List.mem_map_of_mem (fun x => x.1) hp))
      rw [hvt, if_pos hv, Option.none_bind, ofirst_none, Option.some_bind]
      by_cases hs : p₀.2.secretName = s
      · rw [if_pos ⟨hs.symm, hv⟩, if_pos hs]
        rfl
      · rw [if_neg (fun hc => hs hc.1.symm), if_neg hs, ofirst_none]
    · rw [if_neg hv, if_neg (fun hc => hv hc.2)]

theorem groupFold_lookup2 (l : List (String × SecretKeyRef))
    (hn : (l.map (fun p => p.1)).Nodup) (s v : String) :
    lookup2 (groupFold l) s v =
      (slookup v l).bind (fun r => if r.secretName = s then some r.key else none) := by
  have h := groupFold_go l [] (fun p _ s₂ => rfl) hn s v
  rw [groupFold, h]
  show ofirst _ ((slookup s ([] : List (String × Smap String))).bind _) = _
  rw [show slookup s ([] : List (String × Smap String)) = none from rfl,
    Option.none_bind, ofirst_none_right]

theorem keySorted_groupFold (l : List (String × SecretKeyRef)) :
    KeySorted (groupFold l) := by
  rw [groupFold]
  have hgen : ∀ acc, KeySorted acc → KeySorted (l.foldl groupStep acc) := by
    induction l with
    | nil => exact fun acc h => h
    | cons p t ih =>
      intro acc h
      exact ih _ (keySorted_sinsert _ _ _ h)
  exact hgen [] (by simp [KeySorted])

theorem slookup_of_mem_nodup {V : Type} (l : List (String × V))
    (hn : (l.map (fun p => p.1)).Nodup) (k : String) (v : V)
    (hm : (k, v) ∈ l) : slookup k l = some v := by
  induction l with
  | nil => cases hm
  | cons hd t ih =>
    obtain ⟨k₂, v₂⟩ := hd
    rw [List.map_cons, List.nodup_cons] at hn
    rcases List.mem_cons.mp hm with hm | hm
    · cases hm
      rw [slookup, if_pos rfl]
    · have hk : k ≠ k₂ := fun hc =>
        hn.1 (hc ▸ List.mem_map_of_mem (fun p => p.1) hm)
      rw [slookup, if_neg hk]
      exact ih hn.2 hm

theorem bindings_filterMap_none (v : String) (res : List (String × Smap String))
    (h : ∀ p ∈ res, slookup v p.2.1 = none) :
    res.filterMap (fun p => (slookup v p.2.1).map (fun k => (p.1, k))) = [] := by
  induction res with
  | nil => rfl
  | cons p t ih =>
    rw [List.filterMap_cons, h p (List.mem_cons_self _ _)]
    exact ih (fun q hq => h q (List.mem_cons_of_mem _ hq))

theorem bindings_filterMap_singleton (v : String) (res : List (String × Smap String))
    (hn : (res.map (fun p => p.1)).Nodup) (s₀ k₀ : String)
    (hex : (slookup s₀ res).bind (fun g => slookup v g.1) = some k₀)
    (huniq : ∀ s g, slookup s res = some g → s ≠ s₀ → slookup v g.1 = none) :
    res.filterMap (fun p => (slookup v p.2.1).map (fun k => (p.1, k))) = [(s₀, k₀)] := by
  induction res with
  | nil => simp [slookup] at hex
  | cons hd t ih =>
    obtain ⟨s, g⟩ := hd
    rw [List.map_cons, List.nodup_cons] at hn
    rw [List.filterMap_cons]
    cases hlv : slookup v g.1 with
    | some k =>
      have hss : s = s₀ := by
        by_contra hne
        have := huniq s g (by rw [slookup, if_pos rfl]) hne
        rw [this] at hlv
        cases hlv
      subst hss
      rw [slookup, if_pos rfl, Option.some_bind, hlv] at hex
      cases hex
      have hrest : t.filterMap (fun p => (slookup v p.2.1).map (fun k => (p.1, k))) = [] := by
        apply bindings_filterMap_none
        intro p hp
        have hpk : p.1 ≠ s := fun hc =>
          hn.1 (hc ▸ List.mem_map_of_mem (fun x => x.1) hp)
        refine huniq p.1 p.2 ?_ hpk
        rw [slookup, if_neg hpk]
        exact slookup_of_mem_nodup t hn.2 p.1 p.2 hp
      rw [hrest]
      rfl
    | none =>
      have hss : s₀ ≠ s := by
        intro hc
        rw [hc, slookup, if_pos rfl, Option.some_bind, hlv] at hex
        cases hex
      rw [slookup, if_neg hss] at hex
      refine ih hn.2 hex ?_
      intro s₂ g₂ hlk hne
      have hs₂ : s₂ ≠ s := by
        intro hc
        subst hc
        rw [(slookup_eq_none s₂ t (fun p hp hc =>
          hn.1 (hc ▸ List.mem_map_of_mem (fun x => x.1) hp)))] at hlk
        cases hlk
      exact huniq s₂ g₂ (by rw [slookup, if_neg hs₂]; exact hlk) hne

theorem list_eq_nil_of_isEmpty {α : Type} (l : List α) (h : l.isEmpty = true) :
    l = [] := by
  cases l with
  | nil => rfl
  | cons x t => cases h

/-- C4: merging inline and resolved credential-binding sets deduplicates by
environment-variable name with the resolved source winning on conflict: for
every env var the result holds exactly one binding — the last resolved
binding when the env var occurs in the resolved set, else the last inline
binding — and the result is re-grouped by secret name and emitted in
strictly increasing (lexicographic) secret-name order.  The function is
pure, so the same two inputs always produce this same output. -/
theorem c4_dedup_secrets (inline resolved : List MCPServerSecret) :
    ((DeduplicateMCPServerSecrets inline resolved).map
        (fun e => e.secretName)).Pairwise (fun a b => a < b) ∧
    (∀ v, bindingsFor (DeduplicateMCPServerSecrets inline resolved) v =
      Option.elim (ofirst (lastBinding resolved v) (lastBinding inline v))
        [] (fun r => [(r.secretName, r.key)])) := by
  by_cases hempty : (inline.isEmpty && resolved.isEmpty) = true
  · obtain ⟨h1, h2⟩ := Bool.and_eq_true_iff.mp hempty
    rw [list_eq_nil_of_isEmpty inline h1, list_eq_nil_of_isEmpty resolved h2]
    constructor
    · rw [show DeduplicateMCPServerSecrets [] [] = [] from rfl]
      exact List.Pairwise.nil
    · intro v
      rfl
  · rw [DeduplicateMCPServerSecrets, if_neg hempty]
    set m := envMapOf resolved (envMapOf inline []) with hm
    have hms : KeySorted m :=
      keySorted_envMapOf _ _ (keySorted_envMapOf _ _ (by simp [KeySorted]))
    have hnod : (m.map (fun p => p.1)).Nodup := keySorted_keys_nodup m hms
    have hgnod : ((groupFold m).map (fun p => p.1)).Nodup :=
      keySorted_keys_nodup _ (keySorted_groupFold m)
    have hmlookup : ∀ v, slookup v m =
        ofirst (lastBinding resolved v) (lastBinding inline v) := by
      intro v
      rw [hm, envMapOf_lookup, envMapOf_lookup,
        show slookup v ([] : List (String × SecretKeyRef)) = none from rfl,
        ofirst_none_right]
    constructor
    · rw [List.map_map, List.pairwise_map]
      exact (keySorted_groupFold m).imp (fun h => h)
    · intro v
      rw [bindingsFor, List.filterMap_map, ← hmlookup v]
      show (groupFold m).filterMap
          (fun p => (slookup v p.2.1).map (fun k => (p.1, k))) =
        Option.elim (slookup v m) [] (fun r => [(r.secretName, r.key)])
      cases hfb : slookup v m with
      | none =>
        rw [bindings_filterMap_none v (groupFold m) ?_]
        · rfl
        · intro p hp
          have hl2 := groupFold_lookup2 m hnod p.1 v
          rw [lookup2, slookup_of_mem_nodup (groupFold m) hgnod p.1 p.2
            (by rw [Prod.mk.eta]; exact hp), Option.some_bind, hfb,
            Option.none_bind] at hl2
          exact hl2
      | some r =>
        rw [bindings_filterMap_singleton v (groupFold m) hgnod r.secretName r.key ?_ ?_]
        · rfl
        · have h2 := groupFold_lookup2 m hnod r.secretName v
          rw [lookup2] at h2
          rw [h2, hfb, Option.some_bind, if_pos rfl]
        · intro s g hlk hne
          have h2 := groupFold_lookup2 m hnod s v
          rw [lookup2, hlk, Option.some_bind] at h2
          rw [h2, hfb, Option.some_bind, if_neg (fun hc => hne hc.symm)]

/-! ## Shared-integration resolution (internal/controller, resolveMCPServers)

The controller loop is embedded as a function over an environment record
fixing the outcome of every call to the object store: the set of
KlausMCPServer objects that `Get` can return (with their Ready condition
and secret references; the wire-form config produced by
`ServerConfigToRawExtension` is carried as a precomputed opaque field,
since JSON-marshalling a map of strings cannot fail), and whether copying
a given secret into the tenant namespace succeeds.  The outcome records
the secret copies actually performed, in order, alongside the result. -/

structure KlausMCPServerSim where
  name : String
  readyCond : Option Bool
  readyMsg : String
  config : RawExtension
  secretRefs : List MCPServerSecret
  deriving DecidableEq

structure MCPResolveEnv where
  servers : List KlausMCPServerSim
  copyOk : String → Bool

inductive ResolveErr where
  | notFound (server : String)
  | notReady (server msg : String)
  | collision (secret owner₁ owner₂ : String)
  | copyFailed (secret server : String)
  | cleanupFailed (msg : String)
  deriving DecidableEq

instance exceptDecEq {ε α : Type} [DecidableEq ε] [DecidableEq α] :
    DecidableEq (Except ε α) := fun a b =>
  match a, b with
  | Except.error e₁, Except.error e₂ =>
    if h : e₁ = e₂ then isTrue (by rw [h]) else isFalse (fun hc => h (by cases hc; rfl))
  | Except.error _, Except.ok _ => isFalse (fun hc => Except.noConfusion hc)
  | Except.ok _, Except.error _ => isFalse (fun hc => Except.noConfusion hc)
  | Except.ok v₁, Except.ok v₂ =>
    if h : v₁ = v₂ then isTrue (by rw [h]) else isFalse (fun hc => h (by cases hc; rfl))

structure ResolveOutcome where
  copied : List String
  result : Except ResolveErr (Smap RawExtension × List MCPServerSecret)
  deriving DecidableEq

/-- The collision-detection loop over one server's secretRefs: on a secret
name already owned by a different reference, fail; otherwise record this
reference as the owner. -/
def checkCollisions (refName : String) (owners : List (String × String)) :
    List MCPServerSecret → List (String × String) × Option ResolveErr
  | [] => (owners, none)
  | sr :: t =>
    match slookup sr.secretName owners with
    | some prev =>
      if prev ≠ refName then (owners, some (ResolveErr.collision sr.secretName prev refName))
      else checkCollisions refName (sinsert sr.secretName refName owners) t
    | none => checkCollisions refName (sinsert sr.secretName refName owners) t

/-- The per-server secret-copy loop (`copyMCPSecret` upserts into the
tenant namespace; a performed copy is recorded by name). -/
def copyLoop (env : MCPResolveEnv) (refName : String) (copied : List String) :
    List MCPServerSecret → List String × Option ResolveErr
  | [] => (copied, none)
  | sr :: t =>
    if env.copyOk sr.secretName then copyLoop env refName (copied ++ [sr.secretName]) t
    else (copied, some (ResolveErr.copyFailed sr.secretName refName))

/-- The reference-resolution loop of `resolveMCPServers`: fetch each
referenced server, fail fast on an explicit not-ready condition, record
its wire config and secretRefs, detect secret-name collisions, then copy
the server's secrets. -/
def resolveLoop (env : MCPResolveEnv) :
    List MCPServerReference → List (String × String) → Smap RawExtension →
    List MCPServerSecret → List String → ResolveOutcome
  | [], _, resolvedServers, resolvedSecrets, copied =>
    ⟨copied, Except.ok (resolvedServers, resolvedSecrets)⟩
  | ref :: rest, owners, resolvedServers, resolvedSecrets, copied =>
    match findBy (fun s => s.name) ref.name env.servers with
    | none => ⟨copied, Except.error (ResolveErr.notFound ref.name)⟩
    | some server =>
      if server.readyCond = some false then
        ⟨copied, Except.error (ResolveErr.notReady ref.name server.readyMsg)⟩
      else
        match checkCollisions ref.name owners server.secretRefs with
        | (_, some e) => ⟨copied, Except.error e⟩
        | (owners₂, none) =>
          match copyLoop env ref.name copied server.secretRefs with
          | (copied₂, some e) => ⟨copied₂, Except.error e⟩
          | (copied₂, none) =>
            resolveLoop env rest owners₂
              (Smap.insert ref.name server.config resolvedServers)
              (resolvedSecrets ++ server.secretRefs) copied₂

/-- controller `resolveMCPServers`: no-op on an empty reference list;
otherwise run the loop and finish with the stale-secret cleanup (whose
outcome is fixed by `cleanupErr`); the resolved configs and secrets are
merged into the instance spec by the caller of this model. -/
def resolveMCPServers (env : MCPResolveEnv) (refs : List MCPServerReference)
    (cleanupErr : Option String) : ResolveOutcome :=
  if refs.isEmpty then ⟨[], Except.ok (Smap.ofList [], [])⟩
  else
    let out := resolveLoop env refs [] (Smap.ofList []) [] []
    match out.result with
    | Except.error _ => out
    | Except.ok r =>
      match cleanupErr with
      | some msg => ⟨out.copied, Except.error (ResolveErr.cleanupFailed msg)⟩
      | none => ⟨out.copied, Except.ok r⟩

/-- Secret names declared by the server a reference resolves to. -/
def declaredSecretNames (env : MCPResolveEnv) (refName : String) : List String :=
  match findBy (fun s => s.name) refName env.servers with
  | some server => server.secretRefs.map (fun sr => sr.secretName)
  | none => []

theorem checkCollisions_post (refName : String) (srs : List MCPServerSecret) :
    ∀ owners s v, slookup s (checkCollisions refName owners srs).1 = some v →
      slookup s owners = some v ∨
        (v = refName ∧ s ∈ srs.map (fun sr => sr.secretName)) := by
  induction srs with
  | nil => exact fun owners s v h => Or.inl h
  | cons sr t ih =>
    intro owners s v h
    rw [checkCollisions] at h
    cases hprev : slookup sr.secretName owners with
    | some prev =>
      rw [hprev] at h
      simp only [] at h
      by_cases hne : prev ≠ refName
      · rw [if_pos hne] at h
        exact Or.inl h
      · rw [if_neg hne] at h
        rcases ih _ s v h with h₂ | h₂
        · rw [slookup_sinsert] at h₂
          by_cases hs : s = sr.secretName
          · rw [if_pos hs] at h₂
            cases h₂
            exact Or.inr ⟨rfl, by rw [List.map_cons]; exact hs ▸ List.mem_cons_self _ _⟩
          · rw [if_neg hs] at h₂
            exact Or.inl h₂
        · exact Or.inr ⟨h₂.1, by rw [List.map_cons]; exact List.mem_cons_of_mem _ h₂.2⟩
    | none =>
      rw [hprev] at h
      simp only [] at h
      rcases ih _ s v h with h₂ | h₂
      · rw [slookup_sinsert] at h₂
        by_cases hs : s = sr.secretName
        · rw [if_pos hs] at h₂
          cases h₂
          exact Or.inr ⟨rfl, by rw [List.map_cons]; exact hs ▸ List.mem_cons_self _ _⟩
        · rw [if_neg hs] at h₂
          exact Or.inl h₂
      · exact Or.inr ⟨h₂.1, by rw [List.map_cons]; exact List.mem_cons_of_mem _ h₂.2⟩

theorem checkCollisions_domain_mono (refName : String) (srs : List MCPServerSecret) :
    ∀ owners s, (slookup s owners).isSome →
      (slookup s (checkCollisions refName owners srs).1).isSome := by
  induction srs with
  | nil => exact fun owners s h => h
  | cons sr₀ t ih =>
    intro owners s h
    rw [checkCollisions]
    have hins : (slookup s (sinsert sr₀.secretName refName owners)).isSome := by
      rw [slookup_sinsert]
      by_cases hs : s = sr₀.secretName
      · rw [if_pos hs]; rfl
      · rw [if_neg hs]; exact h
    cases hprev : slookup sr₀.secretName owners with
    | some prev =>
      simp only []
      by_cases hne : prev ≠ refName
      · rw [if_pos hne]
        exact h
      · rw [if_neg hne]
        exact ih _ s hins
    | none =>
      simp only []
      exact ih _ s hins

theorem checkCollisions_ok_domain (refName : String) (srs : List MCPServerSecret) :
    ∀ owners o₂, checkCollisions refName owners srs = (o₂, none) →
      ∀ sr ∈ srs, (slookup sr.secretName o₂).isSome := by
  induction srs with
  | nil =>
    intro owners o₂ h sr hm
    cases hm
  | cons sr₀ t ih =>
    intro owners o₂ h sr hm
    rw [checkCollisions] at h
    have hstep : checkCollisions refName (sinsert sr₀.secretName refName owners) t =
        (o₂, none) → (slookup sr.secretName o₂).isSome := by
      intro h₂
      rcases List.mem_cons.mp hm with hm₂ | hm₂
      · subst hm₂
        have hdom : (slookup sr.secretName
            (sinsert sr.secretName refName owners)).isSome := by
          rw [slookup_sinsert, if_pos rfl]
          rfl
        have hres := checkCollisions_domain_mono refName t _ sr.secretName hdom
        rw [h₂] at hres
        exact hres
      · exact ih _ o₂ h₂ sr hm₂
    cases hprev : slookup sr₀.secretName owners with
    | some prev =>
      rw [hprev] at h
      simp only [] at h
      by_cases hne : prev ≠ refName
      · rw [if_pos hne] at h
        cases h
      · rw [if_neg hne] at h
        exact hstep h
    | none =>
      rw [hprev] at h
      simp only [] at h
      exact hstep h

theorem checkCollisions_ok_prev (refName : String) (srs : List MCPServerSecret) :
    ∀ owners o₂, checkCollisions refName owners srs = (o₂, none) →
      ∀ sr ∈ srs, ∀ p, slookup sr.secretName owners = some p → p = refName := by
  induction srs with
  | nil =>
    intro owners o₂ h sr hm
    cases hm
  | cons sr₀ t ih =>
    intro owners o₂ h sr hm p hp
    rw [checkCollisions] at h
    cases hprev : slookup sr₀.secretName owners with
    | some prev =>
      rw [hprev] at h
      simp only [] at h
      by_cases hne : prev ≠ refName
      · rw [if_pos hne] at h
        cases h
      · rw [if_neg hne] at h
        push_neg at hne
        rcases List.mem_cons.mp hm with hm₂ | hm₂
        · subst hm₂
          rw [hprev] at hp
          cases hp
          exact hne
        · by_cases hss : sr.secretName = sr₀.secretName
          · rw [hss, hprev] at hp
            cases hp
            exact hne
          · refine ih _ o₂ h sr hm₂ p ?_
            rw [slookup_sinsert, if_neg hss]
            exact hp
    | none =>
      rw [hprev] at h
      simp only [] at h
      rcases List.mem_cons.mp hm with hm₂ | hm₂
      · subst hm₂
        rw [hprev] at hp
        cases hp
      · by_cases hss : sr.secretName = sr₀.secretName
        · rw [hss, hprev] at hp
          cases hp
        · refine ih _ o₂ h sr hm₂ p ?_
          rw [slookup_sinsert, if_neg hss]
          exact hp

theorem checkCollisions_err_shape (refName : String) (srs : List MCPServerSecret) :
    ∀ owners o₂ e, checkCollisions refName owners srs = (o₂, some e) →
      ∃ s p, e = ResolveErr.collision s p refName ∧
        slookup s owners = some p ∧ p ≠ refName := by
  induction srs with
  | nil =>
    intro owners o₂ e h
    cases h
  | cons sr₀ t ih =>
    intro owners o₂ e h
    rw [checkCollisions] at h
    cases hprev : slookup sr₀.secretName owners with
    | some prev =>
      rw [hprev] at h
      simp only [] at h
      by_cases hne : prev ≠ refName
      · rw [if_pos hne] at h
        cases h
        exact ⟨sr₀.secretName, prev, rfl, hprev, hne⟩
      · rw [if_neg hne] at h
        push_neg at hne
        obtain ⟨s, p, he, hlk, hpne⟩ := ih _ o₂ e h
        rw [slookup_sinsert] at hlk
        by_cases hs : s = sr₀.secretName
        · rw [if_pos hs] at hlk
          cases hlk
          exact absurd rfl hpne
        · rw [if_neg hs] at hlk
          exact ⟨s, p, he, hlk, hpne⟩
    | none =>
      rw [hprev] at h
      simp only [] at h
      obtain ⟨s, p, he, hlk, hpne⟩ := ih _ o₂ e h
      rw [slookup_sinsert] at hlk
      by_cases hs : s = sr₀.secretName
      · rw [if_pos hs] at hlk
        cases hlk
        exact absurd rfl hpne
      · rw [if_neg hs] at hlk
        exact ⟨s, p, he, hlk, hpne⟩

theorem copyLoop_mono (env : MCPResolveEnv) (refName : String)
    (srs : List MCPServerSecret) :
    ∀ copied x, x ∈ copied → x ∈ (copyLoop env refName copied srs).1 := by
  induction srs with
  | nil => exact fun copied x h => h
  | cons sr₀ t ih =>
    intro copied x h
    rw [copyLoop]
    by_cases hc : env.copyOk sr₀.secretName = true
    · rw [if_pos hc]
      exact ih _ x (List.mem_append_left _ h)
    · rw [if_neg hc]
      exact h

theorem copyLoop_ok_mem (env : MCPResolveEnv) (refName : String)
    (srs : List MCPServerSecret) :
    ∀ copied c₂, copyLoop env refName copied srs = (c₂, none) →
      ∀ sr ∈ srs, sr.secretName ∈ c₂ := by
  induction srs with
  | nil =>
    intro copied c₂ h sr hm
    cases hm
  | cons sr₀ t ih =>
    intro copied c₂ h sr hm
    rw [copyLoop] at h
    by_cases hc : env.copyOk sr₀.secretName = true
    · rw [if_pos hc] at h
      rcases List.mem_cons.mp hm with hm₂ | hm₂
      · subst hm₂
        have : sr.secretName ∈ copied ++ [sr.secretName] :=
          List.mem_append_right _ (List.mem_cons_self _ _)
        have hmono := copyLoop_mono env refName t _ sr.secretName this
        rw [h] at hmono
        exact hmono
      · exact ih _ c₂ h sr hm₂
    · rw [if_neg hc] at h
      cases h

theorem copyLoop_all_ok (env : MCPResolveEnv) (refName : String)
    (hcopy : ∀ s, env.copyOk s = true) (srs : List MCPServerSecret) :
    ∀ copied, (copyLoop env refName copied srs).2 = none := by
  induction srs with
  | nil => exact fun copied => rfl
  | cons sr₀ t ih =>
    intro copied
    rw [copyLoop, if_pos (hcopy sr₀.secretName)]
    exact ih _

theorem checkCollisions_not_mem (refName : String) (srs : List MCPServerSecret) :
    ∀ owners s, s ∉ srs.map (fun sr => sr.secretName) →
      slookup s (checkCollisions refName owners srs).1 = slookup s owners := by
  induction srs with
  | nil => exact fun owners s _ => rfl
  | cons sr₀ t ih =>
    intro owners s hs
    rw [List.map_cons, List.mem_cons] at hs
    push_neg at hs
    rw [checkCollisions]
    have hstep : slookup s (checkCollisions refName
        (sinsert sr₀.secretName refName owners) t).1 = slookup s owners := by
      rw [ih _ s hs.2, slookup_sinsert, if_neg hs.1]
    cases hprev : slookup sr₀.secretName owners with
    | some prev =>
      simp only []
      by_cases hne : prev ≠ refName
      · rw [if_pos hne]
      · rw [if_neg hne]
        exact hstep
    | none =>
      simp only []
      exact hstep

theorem copyLoop_err_shape (env : MCPResolveEnv) (refName : String)
    (srs : List MCPServerSecret) :
    ∀ copied c₂ e, copyLoop env refName copied srs = (c₂, some e) →
      ∃ s, e = ResolveErr.copyFailed s refName := by
  induction srs with
  | nil =>
    intro copied c₂ e h
    cases h
  | cons sr₀ t ih =>
    intro copied c₂ e h
    rw [copyLoop] at h
    by_cases hc : env.copyOk sr₀.secretName = true
    · rw [if_pos hc] at h
      exact ih _ c₂ e h
    · rw [if_neg hc] at h
      cases h
      exact ⟨sr₀.secretName, rfl⟩

theorem resolveLoop_collision_copied (env : MCPResolveEnv) :
    ∀ refs owners rs rsec copied out,
      resolveLoop env refs owners rs rsec copied = out →
      (∀ s p, slookup s owners = some p → s ∈ copied) →
      ∀ s p r, out.result = Except.error (ResolveErr.collision s p r) →
        s ∈ out.copied := by
  intro refs
  induction refs with
  | nil =>
    intro owners rs rsec copied out hout hinv s p r hres
    rw [resolveLoop] at hout
    cases hout
    cases hres
  | cons ref rest ih =>
    intro owners rs rsec copied out hout hinv s p r hres
    rw [resolveLoop] at hout
    cases hfind : findBy (fun s => s.name) ref.name env.servers with
    | none =>
      rw [hfind] at hout
      simp only [] at hout
      cases hout
      cases hres
    | some server =>
      rw [hfind] at hout
      simp only [] at hout
      by_cases hready : server.readyCond = some false
      · rw [if_pos hready] at hout
        cases hout
        cases hres
      · rw [if_neg hready] at hout
        cases hcc : checkCollisions ref.name owners server.secretRefs with
        | mk o₂ eopt =>
          rw [hcc] at hout
          cases eopt with
          | some e =>
            simp only [] at hout
            cases hout
            obtain ⟨s₂, p₂, he, hlk, hpne⟩ :=
              checkCollisions_err_shape ref.name server.secretRefs owners o₂ e hcc
            have hres₂ : (Except.error e :
                Except ResolveErr (Smap RawExtension × List MCPServerSecret)) =
                Except.error (ResolveErr.collision s p r) := hres
            rw [he] at hres₂
            cases hres₂
            exact hinv s p hlk
          | none =>
            simp only [] at hout
            cases hcpl : copyLoop env ref.name copied server.secretRefs with
            | mk c₂ e₂ =>
              rw [hcpl] at hout
              cases e₂ with
              | some e =>
                simp only [] at hout
                cases hout
                obtain ⟨s₂, he⟩ :=
                  copyLoop_err_shape env ref.name server.secretRefs copied c₂ e hcpl
                rw [he] at hres
                cases hres
              | none =>
                simp only [] at hout
                refine ih o₂ _ _ c₂ out hout ?_ s p r hres
                intro s₂ p₂ hlk₂
                rcases checkCollisions_post ref.name server.secretRefs owners s₂ p₂
                    (by rw [hcc]; exact hlk₂) with h₂ | h₂
                · have := hinv s₂ p₂ h₂
                  have hmono := copyLoop_mono env ref.name server.secretRefs copied s₂ this
                  rw [hcpl] at hmono
                  exact hmono
                · obtain ⟨sr, hsr, hname⟩ := List.mem_map.mp h₂.2
                  have := copyLoop_ok_mem env ref.name server.secretRefs copied c₂ hcpl sr hsr
                  rw [hname] at this
                  exact this

theorem checkCollisions_ok_declared (refName : String) (srs : List MCPServerSecret) :
    ∀ owners o₂, checkCollisions refName owners srs = (o₂, none) →
      ∀ sr ∈ srs, slookup sr.secretName o₂ = some refName := by
  intro owners o₂ h sr hm
  have hdom := checkCollisions_ok_domain refName srs owners o₂ h sr hm
  cases hv : slookup sr.secretName o₂ with
  | none =>
    rw [hv] at hdom
    cases hdom
  | some v =>
    rcases checkCollisions_post refName srs owners sr.secretName v
        (by rw [h]; exact hv) with h₂ | h₂
    · rw [checkCollisions_ok_prev refName srs owners o₂ h sr hm v h₂]
    · rw [h₂.1]

theorem resolveLoop_err_shape (env : MCPResolveEnv)
    (hcopy : ∀ s, env.copyOk s = true) :
    ∀ refs owners rs rsec copied out,
      resolveLoop env refs owners rs rsec copied = out →
      (∀ ref ∈ refs, (findBy (fun s => s.name) ref.name env.servers).isSome) →
      (∀ ref ∈ refs, ∀ srv,
        findBy (fun s => s.name) ref.name env.servers = some srv →
        srv.readyCond ≠ some false) →
      ∀ e, out.result = Except.error e → ∃ s p r, e = ResolveErr.collision s p r := by
  intro refs
  induction refs with
  | nil =>
    intro owners rs rsec copied out hout hfound hready e hres
    rw [resolveLoop] at hout
    cases hout
    cases hres
  | cons ref rest ih =>
    intro owners rs rsec copied out hout hfound hready e hres
    rw [resolveLoop] at hout
    cases hfind : findBy (fun s => s.name) ref.name env.servers with
    | none =>
      have := hfound ref (List.mem_cons_self _ _)
      rw [hfind] at this
      cases this
    | some server =>
      rw [hfind] at hout
      simp only [] at hout
      have hsrv : server.readyCond ≠ some false :=
        hready ref (List.mem_cons_self _ _) server hfind
      rw [if_neg hsrv] at hout
      cases hcc : checkCollisions ref.name owners server.secretRefs with
      | mk o₂ eopt =>
        rw [hcc] at hout
        cases eopt with
        | some e₂ =>
          simp only [] at hout
          cases hout
          obtain ⟨s₂, p₂, he, _, _⟩ :=
            checkCollisions_err_shape ref.name server.secretRefs owners o₂ e₂ hcc
          cases hres
          exact ⟨s₂, p₂, ref.name, he⟩
        | none =>
          simp only [] at hout
          cases hcpl : copyLoop env ref.name copied server.secretRefs with
          | mk c₂ e₃ =>
            rw [hcpl] at hout
            cases e₃ with
            | some e₂ =>
              have := copyLoop_all_ok env ref.name hcopy server.secretRefs copied
              rw [hcpl] at this
              cases this
            | none =>
              simp only [] at hout
              exact ih o₂ _ _ c₂ out hout
                (fun r hr => hfound r (List.mem_cons_of_mem _ hr))
                (fun r hr => hready r (List.mem_cons_of_mem _ hr)) e hres

theorem resolveLoop_ok_owner (env : MCPResolveEnv) :
    ∀ refs owners rs rsec copied out,
      resolveLoop env refs owners rs rsec copied = out →
      (∃ r₃, out.result = Except.ok r₃) →
      ∀ s n, slookup s owners = some n →
        ∀ ref ∈ refs, ∀ srv,
          findBy (fun x => x.name) ref.name env.servers = some srv →
          s ∈ srv.secretRefs.map (fun sr => sr.secretName) →
          ref.name = n := by
  intro refs
  induction refs with
  | nil =>
    intro owners rs rsec copied out hout hok s n hlk ref hm
    cases hm
  | cons ref₀ rest ih =>
    intro owners rs rsec copied out hout hok s n hlk ref hm srv hsrv hmem
    rw [resolveLoop] at hout
    cases hfind : findBy (fun s => s.name) ref₀.name env.servers with
    | none =>
      rw [hfind] at hout
      simp only [] at hout
      cases hout
      obtain ⟨r₃, hr₃⟩ := hok
      cases hr₃
    | some server =>
      rw [hfind] at hout
      simp only [] at hout
      by_cases hready : server.readyCond = some false
      · rw [if_pos hready] at hout
        cases hout
        obtain ⟨r₃, hr₃⟩ := hok
        cases hr₃
      · rw [if_neg hready] at hout
        cases hcc : checkCollisions ref₀.name owners server.secretRefs with
        | mk o₂ eopt =>
          rw [hcc] at hout
          cases eopt with
          | some e =>
            simp only [] at hout
            cases hout
            obtain ⟨r₃, hr₃⟩ := hok
            cases hr₃
          | none =>
            simp only [] at hout
            cases hcpl : copyLoop env ref₀.name copied server.secretRefs with
            | mk c₂ e₂ =>
              rw [hcpl] at hout
              cases e₂ with
              | some e =>
                simp only [] at hout
                cases hout
                obtain ⟨r₃, hr₃⟩ := hok
                cases hr₃
              | none =>
                simp only [] at hout
                rcases List.mem_cons.mp hm with hm₀ | hm₀
                · subst hm₀
                  have hes : server = srv := Option.some.inj (hfind.symm.trans hsrv)
                  rw [← hes] at hmem
                  obtain ⟨sr, hsr, hname⟩ := List.mem_map.mp hmem
                  have hprev := checkCollisions_ok_prev ref.name server.secretRefs
                    owners o₂ hcc sr hsr n (by rw [hname]; exact hlk)
                  exact hprev.symm
                · by_cases hmem₀ : s ∈ server.secretRefs.map (fun sr => sr.secretName)
                  · obtain ⟨sr, hsr, hname⟩ := List.mem_map.mp hmem₀
                    have hn : n = ref₀.name := checkCollisions_ok_prev ref₀.name
                      server.secretRefs owners o₂ hcc sr hsr n
                      (by rw [hname]; exact hlk)
                    have hlk₂ : slookup s o₂ = some n := by
                      have hdecl := checkCollisions_ok_declared ref₀.name
                        server.secretRefs owners o₂ hcc sr hsr
                      rw [hname] at hdecl
                      rw [hdecl, hn]
                    exact ih o₂ _ _ c₂ out hout hok s n hlk₂ ref hm₀ srv hsrv hmem
                  · have hlk₂ : slookup s o₂ = some n := by
                      have := checkCollisions_not_mem ref₀.name server.secretRefs
                        owners s hmem₀
                      rw [hcc] at this
                      rw [this]
                      exact hlk
                    exact ih o₂ _ _ c₂ out hout hok s n hlk₂ ref hm₀ srv hsrv hmem

theorem resolveLoop_ok_not_shared (env : MCPResolveEnv) :
    ∀ refs owners rs rsec copied out,
      resolveLoop env refs owners rs rsec copied = out →
      (∃ r₃, out.result = Except.ok r₃) →
      ∀ r₁ ∈ refs, ∀ r₂ ∈ refs, r₁.name ≠ r₂.name →
        ∀ srv₁ srv₂,
          findBy (fun x => x.name) r₁.name env.servers = some srv₁ →
          findBy (fun x => x.name) r₂.name env.servers = some srv₂ →
          ∀ s, s ∈ srv₁.secretRefs.map (fun sr => sr.secretName) →
            s ∈ srv₂.secretRefs.map (fun sr => sr.secretName) → False := by
  intro refs
  induction refs with
  | nil =>
    intro owners rs rsec copied out hout hok r₁ hm₁
    cases hm₁
  | cons ref₀ rest ih =>
    intro owners rs rsec copied out hout hok r₁ hm₁ r₂ hm₂ hne srv₁ srv₂ hsrv₁ hsrv₂
      s hs₁ hs₂
    cases hlk : slookup s owners with
    | some n =>
      exact hne ((resolveLoop_ok_owner env (ref₀ :: rest) owners rs rsec copied out
          hout hok s n hlk r₁ hm₁ srv₁ hsrv₁ hs₁).trans
        (resolveLoop_ok_owner env (ref₀ :: rest) owners rs rsec copied out
          hout hok s n hlk r₂ hm₂ srv₂ hsrv₂ hs₂).symm)
    | none =>
      rw [resolveLoop] at hout
      cases hfind : findBy (fun s => s.name) ref₀.name env.servers with
      | none =>
        rw [hfind] at hout
        simp only [] at hout
        cases hout
        obtain ⟨r₃, hr₃⟩ := hok
        cases hr₃
      | some server =>
        rw [hfind] at hout
        simp only [] at hout
        by_cases hready : server.readyCond = some false
        · rw [if_pos hready] at hout
          cases hout
          obtain ⟨r₃, hr₃⟩ := hok
          cases hr₃
        · rw [if_neg hready] at hout
          cases hcc : checkCollisions ref₀.name owners server.secretRefs with
          | mk o₂ eopt =>
            rw [hcc] at hout
            cases eopt with
            | some e =>
              simp only [] at hout
              cases hout
              obtain ⟨r₃, hr₃⟩ := hok
              cases hr₃
            | none =>
              simp only [] at hout
              cases hcpl : copyLoop env ref₀.name copied server.secretRefs with
              | mk c₂ e₂ =>
                rw [hcpl] at hout
                cases e₂ with
                | some e =>
                  simp only [] at hout
                  cases hout
                  obtain ⟨r₃, hr₃⟩ := hok
                  cases hr₃
                | none =>
                  simp only [] at hout
                  rcases List.mem_cons.mp hm₁ with hm₁₀ | hm₁₀ <;>
                    rcases List.mem_cons.mp hm₂ with hm₂₀ | hm₂₀
                  · exact hne (hm₁₀ ▸ hm₂₀ ▸ rfl)
                  · subst hm₁₀
                    have hes : server = srv₁ := Option.some.inj (hfind.symm.trans hsrv₁)
                    rw [← hes] at hs₁
                    obtain ⟨sr, hsr, hname⟩ := List.mem_map.mp hs₁
                    have hdecl := checkCollisions_ok_declared r₁.name server.secretRefs
                      owners o₂ hcc sr hsr
                    rw [hname] at hdecl
                    exact hne ((resolveLoop_ok_owner env rest o₂ _ _ c₂ out hout hok
                      s r₁.name hdecl r₂ hm₂₀ srv₂ hsrv₂ hs₂).symm)
                  · subst hm₂₀
                    have hes : server = srv₂ := Option.some.inj (hfind.symm.trans hsrv₂)
                    rw [← hes] at hs₂
                    obtain ⟨sr, hsr, hname⟩ := List.mem_map.mp hs₂
                    have hdecl := checkCollisions_ok_declared r₂.name server.secretRefs
                      owners o₂ hcc sr hsr
                    rw [hname] at hdecl
                    exact hne (resolveLoop_ok_owner env rest o₂ _ _ c₂ out hout hok
                      s r₂.name hdecl r₁ hm₁₀ srv₁ hsrv₁ hs₁)
                  · exact ih o₂ _ _ c₂ out hout hok r₁ hm₁₀ r₂ hm₂₀ hne
                      srv₁ srv₂ hsrv₁ hsrv₂ s hs₁ hs₂

theorem declared_mem (env : MCPResolveEnv) (refName s₀ : String)
    (h : s₀ ∈ declaredSecretNames env refName) :
    ∃ srv, findBy (fun x => x.name) refName env.servers = some srv ∧
      s₀ ∈ srv.secretRefs.map (fun sr => sr.secretName) := by
  rw [declaredSecretNames] at h
  cases hfind : findBy (fun s => s.name) refName env.servers with
  | none =>
    rw [hfind] at h
    simp only [] at h
    cases h
  | some srv =>
    rw [hfind] at h
    simp only [] at h
    exact ⟨srv, rfl, h⟩

theorem resolveMCPServers_err (env : MCPResolveEnv) (refs : List MCPServerReference)
    (cleanupErr : Option String) (c : List String) (e : ResolveErr)
    (hne : refs.isEmpty = false)
    (h : resolveLoop env refs [] (Smap.ofList []) [] [] = ⟨c, Except.error e⟩) :
    resolveMCPServers env refs cleanupErr = ⟨c, Except.error e⟩ := by
  rw [resolveMCPServers, if_neg (by rw [hne]; exact Bool.false_ne_true)]
  simp only [h]

/-- C2, counterexample to the claim as stated: with two references "svc-a"
and "svc-b" both declaring the secret "shared", resolution does return the
collision error, but the disputed secret has already been copied into the
tenant namespace during the first reference's iteration — afterwards one
secret copy exists, not zero. -/
theorem c2_counterexample :
    resolveMCPServers
        ⟨[⟨"svc-a", none, "", ⟨"{}"⟩, [⟨"shared", Smap.ofList [("TOKEN_A", "k")]⟩]⟩,
          ⟨"svc-b", none, "", ⟨"{}"⟩, [⟨"shared", Smap.ofList [("TOKEN_B", "k")]⟩]⟩],
          fun _ => true⟩
        [⟨"svc-a"⟩, ⟨"svc-b"⟩] none =
      ⟨["shared"], Except.error (ResolveErr.collision "shared" "svc-a" "svc-b")⟩ ∧
    (["shared"] : List String) ≠ [] := by
  exact ⟨by decide, by decide⟩

/-- C2 (amended): when an instance's shared-integration references include
two distinct references declaring credential bindings under the same
secret name — and every reference resolves, no referenced server is
explicitly not-ready, and secret copies succeed — resolution returns a
collision error.  The error is raised before any secret of the reference
being processed is copied, but copies performed for references of earlier
iterations remain: in particular the disputed secret name itself is among
the copies already performed when the error returns, so the set of
performed copies is not empty. -/
theorem c2_collision_detection
    (env : MCPResolveEnv) (refs : List MCPServerReference) (cleanupErr : Option String)
    (hfound : ∀ ref ∈ refs, (findBy (fun s => s.name) ref.name env.servers).isSome)
    (hready : ∀ ref ∈ refs, ∀ srv,
      findBy (fun s => s.name) ref.name env.servers = some srv →
      srv.readyCond ≠ some false)
    (hcopy : ∀ s, env.copyOk s = true)
    (r₁ r₂ : MCPServerReference)
    (hm₁ : r₁ ∈ refs) (hm₂ : r₂ ∈ refs) (hne : r₁.name ≠ r₂.name)
    (s₀ : String)
    (hs₁ : s₀ ∈ declaredSecretNames env r₁.name)
    (hs₂ : s₀ ∈ declaredSecretNames env r₂.name) :
    (∃ s p r, (resolveMCPServers env refs cleanupErr).result =
        Except.error (ResolveErr.collision s p r)) ∧
    (∀ s p r, (resolveMCPServers env refs cleanupErr).result =
        Except.error (ResolveErr.collision s p r) →
      s ∈ (resolveMCPServers env refs cleanupErr).copied) := by
  obtain ⟨srv₁, hf₁, hmem₁⟩ := declared_mem env r₁.name s₀ hs₁
  obtain ⟨srv₂, hf₂, hmem₂⟩ := declared_mem env r₂.name s₀ hs₂
  have hne_nil : refs ≠ [] := by
    intro hc
    rw [hc] at hm₁
    cases hm₁
  cases hout : resolveLoop env refs [] (Smap.ofList []) [] [] with
  | mk oc ores =>
    cases ores with
    | ok r₃ =>
      exact (resolveLoop_ok_not_shared env refs [] _ [] [] ⟨oc, Except.ok r₃⟩ hout
        ⟨r₃, rfl⟩ r₁ hm₁ r₂ hm₂ hne srv₁ srv₂ hf₁ hf₂ s₀ hmem₁ hmem₂).elim
    | error e =>
      obtain ⟨s, p, r, he⟩ := resolveLoop_err_shape env hcopy refs []
        _ [] [] ⟨oc, Except.error e⟩ hout hfound hready e rfl
      subst he
      have hmain := resolveMCPServers_err env refs cleanupErr oc
        (ResolveErr.collision s p r) (isEmpty_false_of_ne_nil refs hne_nil) hout
      constructor
      · exact ⟨s, p, r, by rw [hmain]⟩
      · intro s₂ p₂ r₃ hres
        rw [hmain] at hres ⊢
        obtain ⟨h1, h2, h3⟩ := ResolveErr.collision.inj (Except.error.inj hres)
        rw [← h1]
        exact resolveLoop_collision_copied env refs [] _ [] []
          ⟨oc, Except.error (ResolveErr.collision s p r)⟩ hout
          (fun s v hlk => by simp [slookup] at hlk) s p r rfl

theorem c2_collision_detection_witness :
    ∃ s p r,
      (resolveMCPServers
          ⟨[⟨"svc-a", none, "", ⟨"{}"⟩, [⟨"shared", Smap.ofList [("TOKEN_A", "k")]⟩]⟩,
            ⟨"svc-b", none, "", ⟨"{}"⟩, [⟨"shared", Smap.ofList [("TOKEN_B", "k")]⟩]⟩],
            fun _ => true⟩
          [⟨"svc-a"⟩, ⟨"svc-b"⟩] none).result =
        Except.error (ResolveErr.collision s p r) :=
  (c2_collision_detection _ _ none
    (by intro ref hm; fin_cases hm <;> decide)
    (by
      intro ref hm srv hsrv
      fin_cases hm
      · cases show some (⟨"svc-a", none, "", ⟨"{}"⟩,
            [⟨"shared", Smap.ofList [("TOKEN_A", "k")]⟩]⟩ : KlausMCPServerSim) =
            some srv from hsrv
        decide
      · cases show some (⟨"svc-b", none, "", ⟨"{}"⟩,
            [⟨"shared", Smap.ofList [("TOKEN_B", "k")]⟩]⟩ : KlausMCPServerSim) =
            some srv from hsrv
        decide)
    (fun s => rfl) ⟨"svc-a"⟩ ⟨"svc-b"⟩ (by decide) (by decide) (by decide)
    "shared" (by decide) (by decide)).1

/- ### Deletion pass (reconcileDelete): error collection and finalizer removal.

The deletion pass deletes the in-namespace child objects (Deployment, Service,
ConfigMap, Secret, ServiceAccount, optional PVC and git-credential Secret),
runs the owner-scoped stale-secret cleanup, and deletes the cross-namespace
MCPServer CRD.  Each delete call either succeeds, reports not-found, or fails
with an error message; the environment fixes these outcomes in call order. -/

inductive DeleteOutcome
  | ok
  | notFound
  | failed (msg : String)
deriving DecidableEq

def collectDeleteErrs : List DeleteOutcome → List String
  | [] => []
  | DeleteOutcome.failed msg :: rest => msg :: collectDeleteErrs rest
  | DeleteOutcome.ok :: rest => collectDeleteErrs rest
  | DeleteOutcome.notFound :: rest => collectDeleteErrs rest

structure DeletePass where
  errs : List String
  finalizerRemoved : Bool
deriving DecidableEq

def cleanupErrList : Option String → List String
  | some msg => [msg]
  | none => []

def deletePassErrs (cleanupRes : Option String) (childDeletes : List DeleteOutcome)
    (mcpDelete : DeleteOutcome) : List String :=
  cleanupErrList cleanupRes ++ collectDeleteErrs childDeletes ++
    collectDeleteErrs [mcpDelete]

def reconcileDelete (cleanupRes : Option String) (childDeletes : List DeleteOutcome)
    (mcpDelete : DeleteOutcome) : DeletePass :=
  if (deletePassErrs cleanupRes childDeletes mcpDelete).isEmpty then
    ⟨deletePassErrs cleanupRes childDeletes mcpDelete, true⟩
  else
    ⟨deletePassErrs cleanupRes childDeletes mcpDelete, false⟩

theorem collectDeleteErrs_append (l₁ l₂ : List DeleteOutcome) :
    collectDeleteErrs (l₁ ++ l₂) = collectDeleteErrs l₁ ++ collectDeleteErrs l₂ := by
  induction l₁ with
  | nil => rfl
  | cons o rest ih =>
    cases o with
    | ok => rw [List.cons_append, collectDeleteErrs, ih, collectDeleteErrs]
    | notFound => rw [List.cons_append, collectDeleteErrs, ih, collectDeleteErrs]
    | failed msg =>
      rw [List.cons_append, collectDeleteErrs, ih, collectDeleteErrs, List.cons_append]

theorem collectDeleteErrs_eq_nil_iff (l : List DeleteOutcome) :
    collectDeleteErrs l = [] ↔ ∀ o ∈ l, ∀ msg, o ≠ DeleteOutcome.failed msg := by
  induction l with
  | nil => simp [collectDeleteErrs]
  | cons o rest ih =>
    cases o with
    | ok => simp [collectDeleteErrs, ih]
    | notFound => simp [collectDeleteErrs, ih]
    | failed msg => simp [collectDeleteErrs]

theorem mem_collectDeleteErrs (l : List DeleteOutcome) (msg : String) :
    msg ∈ collectDeleteErrs l ↔ DeleteOutcome.failed msg ∈ l := by
  induction l with
  | nil => simp [collectDeleteErrs]
  | cons o rest ih =>
    cases o with
    | ok => simp [collectDeleteErrs, ih]
    | notFound => simp [collectDeleteErrs, ih]
    | failed m => simp [collectDeleteErrs, ih]

/-- C5: in the deletion pass every delete error other than not-found is
collected (not-found outcomes are ignored), and the finalizer is removed if
and only if zero errors were collected: the stale-credential cleanup
succeeded and none of the child-object deletions (including the
cross-namespace MCPServer CRD) failed with a non-not-found error. -/
theorem c5_deletion_atomicity (cleanupRes : Option String)
    (childDeletes : List DeleteOutcome) (mcpDelete : DeleteOutcome) :
    ((reconcileDelete cleanupRes childDeletes mcpDelete).finalizerRemoved = true ↔
      cleanupRes = none ∧
        ∀ o ∈ childDeletes ++ [mcpDelete], ∀ msg, o ≠ DeleteOutcome.failed msg) ∧
    ((reconcileDelete cleanupRes childDeletes mcpDelete).errs =
      cleanupErrList cleanupRes ++ collectDeleteErrs (childDeletes ++ [mcpDelete])) ∧
    (∀ msg, msg ∈ collectDeleteErrs (childDeletes ++ [mcpDelete]) ↔
      DeleteOutcome.failed msg ∈ childDeletes ++ [mcpDelete]) := by
  have hval : deletePassErrs cleanupRes childDeletes mcpDelete =
      cleanupErrList cleanupRes ++ collectDeleteErrs (childDeletes ++ [mcpDelete]) := by
    rw [deletePassErrs, collectDeleteErrs_append, List.append_assoc]
  have hfin : (reconcileDelete cleanupRes childDeletes mcpDelete).finalizerRemoved =
      (deletePassErrs cleanupRes childDeletes mcpDelete).isEmpty := by
    rw [reconcileDelete]
    by_cases h : (deletePassErrs cleanupRes childDeletes mcpDelete).isEmpty = true
    · rw [if_pos h, h]
    · rw [if_neg h]
      simp only [Bool.not_eq_true] at h
      exact h.symm
  have herrs : (reconcileDelete cleanupRes childDeletes mcpDelete).errs =
      deletePassErrs cleanupRes childDeletes mcpDelete := by
    rw [reconcileDelete]
    by_cases h : (deletePassErrs cleanupRes childDeletes mcpDelete).isEmpty = true
    · rw [if_pos h]
    · rw [if_neg h]
  refine ⟨?_, ?_, fun msg => mem_collectDeleteErrs _ msg⟩
  · rw [hfin, hval, List.isEmpty_iff, List.append_eq_nil]
    constructor
    · intro h
      refine ⟨?_, (collectDeleteErrs_eq_nil_iff _).mp h.2⟩
      cases hc : cleanupRes with
      | none => rfl
      | some msg =>
        rw [hc] at h
        cases h.1
    · intro h
      refine ⟨?_, (collectDeleteErrs_eq_nil_iff _).mpr h.2⟩
      rw [h.1]
      rfl
  · rw [herrs, hval]

/- ### UserNamespace (builder.go): owner sanitization.

`UserNamespace` lowercases the owner (Go `strings.ToLower`, a per-rune
Unicode mapping, abstracted here as a parameter `lower`), replaces `@` and
`.` with hyphens, replaces every character outside `[a-z0-9-]` with a
hyphen, trims leading/trailing hyphens, truncates to 50 bytes (all
characters are ASCII at that point, so bytes coincide with characters) and
prepends the fixed 11-character "klaus-user-" marker.  As a pure function
of the owner it is deterministic. -/

def isAllowedChar (c : Char) : Bool :=
  ('a' ≤ c && c ≤ 'z') || ('0' ≤ c && c ≤ '9') || c = '-'

def replaceAtChar (c : Char) : Char := if c = '@' then '-' else c

def replaceDotChar (c : Char) : Char := if c = '.' then '-' else c

def sanitizeChar (c : Char) : Char := if isAllowedChar c then c else '-'

def trimHyphens (l : List Char) : List Char :=
  ((l.dropWhile (fun c => c = '-')).reverse.dropWhile (fun c => c = '-')).reverse

def truncate50 (l : List Char) : List Char := if l.length > 50 then l.take 50 else l

def userNamespaceChars (lower : Char → Char) (owner : List Char) : List Char :=
  "klaus-user-".data ++
    truncate50 (trimHyphens
      (List.map sanitizeChar (List.map replaceDotChar
        (List.map replaceAtChar (List.map lower owner)))))

theorem isAllowedChar_sanitizeChar (c : Char) : isAllowedChar (sanitizeChar c) = true := by
  rw [sanitizeChar]
  by_cases h : isAllowedChar c = true
  · rw [if_pos h]
    exact h
  · rw [if_neg h]
    decide

theorem mem_of_mem_dropWhile (p : Char → Bool) (l : List Char) :
    ∀ c ∈ l.dropWhile p, c ∈ l := by
  induction l with
  | nil => intro c hc; exact hc
  | cons a rest ih =>
    intro c hc
    rw [List.dropWhile_cons] at hc
    by_cases hpa : p a = true
    · rw [if_pos hpa] at hc
      exact List.mem_cons_of_mem a (ih c hc)
    · rw [if_neg hpa] at hc
      exact hc

theorem mem_of_mem_trimHyphens (l : List Char) : ∀ c ∈ trimHyphens l, c ∈ l := by
  intro c hc
  rw [trimHyphens, List.mem_reverse] at hc
  have h1 := mem_of_mem_dropWhile _ _ c hc
  rw [List.mem_reverse] at h1
  exact mem_of_mem_dropWhile _ _ c h1

theorem mem_of_mem_truncate50 (l : List Char) : ∀ c ∈ truncate50 l, c ∈ l := by
  intro c hc
  rw [truncate50] at hc
  by_cases h : l.length > 50
  · rw [if_pos h] at hc
    exact (List.take_sublist 50 l).subset hc
  · rw [if_neg h] at hc
    exact hc

theorem truncate50_length (l : List Char) : (truncate50 l).length ≤ 50 := by
  rw [truncate50]
  by_cases h : l.length > 50
  · rw [if_pos h, List.length_take]
    omega
  · rw [if_neg h]
    omega

/-- C10: for every owner string (and every per-rune lowercase mapping), the
namespace name built by UserNamespace starts with the marker "klaus-user-",
every character after that marker is a lowercase ASCII letter, a digit or a
hyphen, and the total length is at most 61 characters; being a pure
function of the owner, the construction is deterministic. -/
theorem c10_user_namespace (lower : Char → Char) (owner : List Char) :
    (userNamespaceChars lower owner).length ≤ 61 ∧
    (userNamespaceChars lower owner).take 11 = "klaus-user-".data ∧
    (∀ c ∈ (userNamespaceChars lower owner).drop 11, isAllowedChar c = true) := by
  have hplen : ("klaus-user-".data).length = 11 := by decide
  refine ⟨?_, ?_, ?_⟩
  · rw [userNamespaceChars, List.length_append, hplen]
    have := truncate50_length (trimHyphens
      (List.map sanitizeChar (List.map replaceDotChar
        (List.map replaceAtChar (List.map lower owner)))))
    omega
  · rw [userNamespaceChars, ← hplen, List.take_left]
  · intro c hc
    rw [userNamespaceChars, ← hplen, List.drop_left] at hc
    have h1 := mem_of_mem_trimHyphens _ c (mem_of_mem_truncate50 _ c hc)
    obtain ⟨a, _, ha⟩ := List.mem_map.mp h1
    rw [← ha]
    exact isAllowedChar_sanitizeChar a

/- ### Stale shared-credential garbage collection (cleanupStaleMCPSecrets).

The environment fixes the listed KlausMCPServers (name plus declared secret
names), the listed instances (owner, deletion flag, shared-integration
reference names) and the owner-scoped labeled secrets present in the tenant
namespace.  The model returns the names the pass deletes. -/

structure MCPServerInfo where
  name : String
  secretNames : List String
deriving DecidableEq

structure InstanceInfo where
  owner : List Char
  deleting : Bool
  mcpRefs : List String
deriving DecidableEq

def serverSecretsFor (servers : List MCPServerInfo) (refName : String) : List String :=
  (servers.filter (fun s => s.name == refName)).foldr (fun s acc => s.secretNames ++ acc) []

def desiredSecret (lower : Char → Char) (servers : List MCPServerInfo)
    (instances : List InstanceInfo) (namespaceVal : List Char) (secretName : String) : Bool :=
  instances.any (fun inst =>
    (userNamespaceChars lower inst.owner == namespaceVal) && !inst.deleting &&
      inst.mcpRefs.any (fun refName => (serverSecretsFor servers refName).contains secretName))

def cleanupStaleMCPSecrets (lower : Char → Char) (servers : List MCPServerInfo)
    (instances : List InstanceInfo) (namespaceVal : List Char)
    (labeledSecrets : List String) : List String :=
  labeledSecrets.filter (fun s => !desiredSecret lower servers instances namespaceVal s)

/-- C6: the garbage collector never deletes a still-desired shared-credential
secret — any secret name declared by an integration that some non-deleting
instance of the same tenant namespace references is kept — and every name it
does delete is one of the owner-scoped labeled secrets whose name is outside
the desired set. -/
theorem c6_gc_retention (lower : Char → Char) (servers : List MCPServerInfo)
    (instances : List InstanceInfo) (namespaceVal : List Char)
    (labeledSecrets : List String) :
    (∀ inst ∈ instances, userNamespaceChars lower inst.owner = namespaceVal →
      inst.deleting = false →
      ∀ refName ∈ inst.mcpRefs, ∀ s ∈ serverSecretsFor servers refName,
        s ∉ cleanupStaleMCPSecrets lower servers instances namespaceVal labeledSecrets) ∧
    (∀ s ∈ cleanupStaleMCPSecrets lower servers instances namespaceVal labeledSecrets,
      s ∈ labeledSecrets ∧
        desiredSecret lower servers instances namespaceVal s = false) := by
  constructor
  · intro inst hm hns hdel refName hr s hs hmem
    have hdes : desiredSecret lower servers instances namespaceVal s = true := by
      rw [desiredSecret, List.any_eq_true]
      refine ⟨inst, hm, ?_⟩
      rw [Bool.and_eq_true, Bool.and_eq_true]
      refine ⟨⟨beq_iff_eq.mpr hns, by rw [hdel]; rfl⟩, ?_⟩
      rw [List.any_eq_true]
      refine ⟨refName, hr, ?_⟩
      exact List.elem_eq_true_of_mem hs
    rw [cleanupStaleMCPSecrets] at hmem
    have h2 := (List.mem_filter.mp hmem).2
    rw [hdes] at h2
    cases h2
  · intro s hs
    rw [cleanupStaleMCPSecrets] at hs
    have h := List.mem_filter.mp hs
    refine ⟨h.1, ?_⟩
    have h2 := h.2
    cases hd : desiredSecret lower servers instances namespaceVal s with
    | false => rfl
    | true =>
      rw [hd] at h2
      cases h2

/- ### ExtractUserFromToken (auth.go): identity extraction from a JWT.

Tokens are modeled as character lists.  `strings.TrimPrefix` for the two
bearer markers and `strings.Split` on "." are embedded directly; the
standard-library base64url decoder and JSON unmarshaller are abstracted as
parameters (`b64`, `parse`), each returning `none` exactly when the Go call
returns an error. -/

structure JWTClaims where
  email : String
  sub : String
deriving DecidableEq

def trimLead (p s : List Char) : List Char :=
  if p.isPrefixOf s then s.drop p.length else s

def stripBearerMarks (token : List Char) : List Char :=
  trimLead "bearer ".data (trimLead "Bearer ".data token)

def splitDots : List Char → List (List Char)
  | [] => [[]]
  | c :: rest =>
    match splitDots rest with
    | [] => [[]]
    | cur :: acc => if c = '.' then [] :: cur :: acc else (c :: cur) :: acc

def extractUserFromToken (b64 : List Char → Option String)
    (parse : String → Option JWTClaims) (token : List Char) : Except String String :=
  if token = [] then Except.error "no token provided"
  else
    match splitDots (stripBearerMarks token) with
    | [_, p1, _] =>
      match b64 p1 with
      | none => Except.error "decoding JWT payload"
      | some payload =>
        match parse payload with
        | none => Except.error "parsing JWT claims"
        | some claims =>
          if claims.email ≠ "" then Except.ok claims.email
          else if claims.sub ≠ "" then Except.ok claims.sub
          else Except.error "JWT contains neither email nor sub claim"
    | _ => Except.error "invalid JWT format"

/-- C9: extraction succeeds exactly when the token, after stripping the
optional bearer markers, splits into three dot-separated parts whose second
part base64url-decodes to a payload whose claims parse with a non-empty
email or a non-empty sub; the returned identity is the email when
non-empty, otherwise the sub, and is therefore never the empty string. -/
theorem c9_extract_user (b64 : List Char → Option String)
    (parse : String → Option JWTClaims) (token : List Char) :
    ((∃ u, extractUserFromToken b64 parse token = Except.ok u) ↔
      (∃ p0 p1 p2 payload claims,
        splitDots (stripBearerMarks token) = [p0, p1, p2] ∧
        b64 p1 = some payload ∧ parse payload = some claims ∧
        (claims.email ≠ "" ∨ claims.sub ≠ ""))) ∧
    (∀ u, extractUserFromToken b64 parse token = Except.ok u →
      u ≠ "" ∧ ∃ p0 p1 p2 payload claims,
        splitDots (stripBearerMarks token) = [p0, p1, p2] ∧
        b64 p1 = some payload ∧ parse payload = some claims ∧
        u = (if claims.email ≠ "" then claims.email else claims.sub)) := by
  by_cases htok : token = []
  · constructor
    · constructor
      · intro ⟨u, hu⟩
        rw [extractUserFromToken, if_pos htok] at hu
        cases hu
      · intro ⟨p0, p1, p2, payload, claims, h1, h2⟩
        rw [htok] at h1
        rw [show splitDots (stripBearerMarks []) = [[]] from rfl] at h1
        simp at h1
    · intro u hu
      rw [extractUserFromToken, if_pos htok] at hu
      cases hu
  · have hbody : ∀ u, extractUserFromToken b64 parse token = Except.ok u →
        ∃ p0 p1 p2 payload claims,
          splitDots (stripBearerMarks token) = [p0, p1, p2] ∧
          b64 p1 = some payload ∧ parse payload = some claims ∧
          (claims.email ≠ "" ∨ claims.sub ≠ "") ∧
          u = (if claims.email ≠ "" then claims.email else claims.sub) ∧ u ≠ "" := by
      intro u hu
      rw [extractUserFromToken, if_neg htok] at hu
      cases hsp : splitDots (stripBearerMarks token) with
      | nil => rw [hsp] at hu; simp only [] at hu; cases hu
      | cons p0 t =>
        cases t with
        | nil => rw [hsp] at hu; simp only [] at hu; cases hu
        | cons p1 t2 =>
          cases t2 with
          | nil => rw [hsp] at hu; simp only [] at hu; cases hu
          | cons p2 t3 =>
            cases t3 with
            | cons p3 t4 => rw [hsp] at hu; simp only [] at hu; cases hu
            | nil =>
              rw [hsp] at hu
              simp only [] at hu
              cases hb : b64 p1 with
              | none => rw [hb] at hu; simp only [] at hu; cases hu
              | some payload =>
                rw [hb] at hu
                simp only [] at hu
                cases hp : parse payload with
                | none => rw [hp] at hu; simp only [] at hu; cases hu
                | some claims =>
                  rw [hp] at hu
                  simp only [] at hu
                  by_cases hemail : claims.email = ""
                  · rw [if_neg (fun hc => hc hemail)] at hu
                    by_cases hsub : claims.sub = ""
                    · rw [if_neg (fun hc => hc hsub)] at hu
                      cases hu
                    · rw [if_pos hsub] at hu
                      have hus : u = claims.sub := (Except.ok.inj hu).symm
                      refine ⟨p0, p1, p2, payload, claims, rfl, hb, hp,
                        Or.inr hsub, ?_, ?_⟩
                      · rw [if_neg (fun hc => hc hemail), hus]
                      · rw [hus]; exact hsub
                  · rw [if_pos hemail] at hu
                    have hue : u = claims.email := (Except.ok.inj hu).symm
                    refine ⟨p0, p1, p2, payload, claims, rfl, hb, hp,
                      Or.inl hemail, ?_, ?_⟩
                    · rw [if_pos hemail, hue]
                    · rw [hue]; exact hemail
    constructor
    · constructor
      · intro ⟨u, hu⟩
        obtain ⟨p0, p1, p2, payload, claims, h1, h2, h3, h4, _, _⟩ := hbody u hu
        exact ⟨p0, p1, p2, payload, claims, h1, h2, h3, h4⟩
      · intro ⟨p0, p1, p2, payload, claims, h1, h2, h3, h4⟩
        rw [extractUserFromToken, if_neg htok, h1]
        simp only []
        rw [h2]
        simp only []
        rw [h3]
        simp only []
        by_cases hemail : claims.email = ""
        · have hsub : claims.sub ≠ "" := by
            cases h4 with
            | inl h => exact absurd hemail h
            | inr h => exact h
          exact ⟨claims.sub, by rw [if_neg (fun hc => hc hemail), if_pos hsub]⟩
        · exact ⟨claims.email, by rw [if_pos hemail]⟩
    · intro u hu
      obtain ⟨p0, p1, p2, payload, claims, h1, h2, h3, _, h5, h6⟩ := hbody u hu
      exact ⟨h6, p0, p1, p2, payload, claims, h1, h2, h3, h5⟩

/- ### Reconcile (normal pass): status gating and the API-key startup race.

The pass is modeled over an environment fixing the outcome of each external
call in source order: the four resolution/validation steps, the API-key
secret copy (whose Go contract is (true,nil) on success, (false,nil) when
the source secret does not exist, (false,err) otherwise), the remaining
apply steps, the deployment's reported available replicas at the readiness
check, and the final status update.  The MCPServer-CRD step is deliberately
carried but never consulted: its failure is non-fatal in the source.
`firstErr` returns the first failing step, matching the source's
return-on-first-error control flow; `stateAfterNormalize` is the
empty-state-to-Pending normalization done at the top of the pass. -/

inductive InstanceState
  | unset
  | pending
  | running
  | errorState
deriving DecidableEq

inductive APIKeyOutcome
  | copied
  | srcNotFound
  | fetchFailed (msg : String)
  | missingField
  | upsertFailed (msg : String)
deriving DecidableEq

def copyAPIKeySecret : APIKeyOutcome → Bool × Option String
  | APIKeyOutcome.copied => (true, none)
  | APIKeyOutcome.srcNotFound => (false, none)
  | APIKeyOutcome.fetchFailed msg =>
      (false, some ("fetching Anthropic API key secret: " ++ msg))
  | APIKeyOutcome.missingField =>
      (false, some "Anthropic API key secret missing api-key field")
  | APIKeyOutcome.upsertFailed msg => (false, some msg)

structure ReconcileEnv where
  initialState : InstanceState
  personalityErr : Option String
  mcpResolveErr : Option String
  validateErr : Option String
  namespaceErr : Option String
  apiKey : APIKeyOutcome
  gitSecretErr : Option String
  configMapBuildErr : Option String
  configMapErr : Option String
  pvcErr : Option String
  serviceAccountErr : Option String
  deploymentErr : Option String
  depGetErr : Option String
  availableReplicas : Int
  serviceErr : Option String
  mcpServerCRDErr : Option String
  statusUpdateErr : Option String
deriving DecidableEq

structure ReconcileResult where
  state : InstanceState
  requeueAfterSeconds : Nat
  err : Option String
deriving DecidableEq

def firstErr : List (Option String) → Option String
  | [] => none
  | some e :: _ => some e
  | none :: rest => firstErr rest

def stateAfterNormalize : InstanceState → InstanceState
  | InstanceState.unset => InstanceState.pending
  | s => s

def updateStatusError (e : String) : ReconcileResult :=
  ⟨InstanceState.errorState, 0, some e⟩

def updateStatusRunning (statusUpdateRes : Option String) : ReconcileResult :=
  Option.elim statusUpdateRes ⟨InstanceState.running, 0, none⟩
    (fun e => ⟨InstanceState.running, 0, some e⟩)

def updateStatusPending (statusUpdateRes : Option String) : ReconcileResult :=
  Option.elim statusUpdateRes ⟨InstanceState.pending, 5, none⟩
    (fun e => ⟨InstanceState.pending, 0, some e⟩)

def reconcileTail (env : ReconcileEnv) : ReconcileResult :=
  match firstErr [env.gitSecretErr, env.configMapBuildErr, env.configMapErr,
      env.pvcErr, env.serviceAccountErr, env.deploymentErr, env.depGetErr,
      env.serviceErr] with
  | some e => updateStatusError e
  | none =>
    if env.availableReplicas > 0 then updateStatusRunning env.statusUpdateErr
    else updateStatusPending env.statusUpdateErr

def reconcileNormal (env : ReconcileEnv) : ReconcileResult :=
  match firstErr [env.personalityErr, env.mcpResolveErr, env.validateErr,
      env.namespaceErr] with
  | some e => updateStatusError e
  | none =>
    match copyAPIKeySecret env.apiKey with
    | (_, some e) => updateStatusError e
    | (false, none) => ⟨stateAfterNormalize env.initialState, 30, none⟩
    | (true, none) => reconcileTail env

theorem reconcileTail_running (env : ReconcileEnv)
    (h : (reconcileTail env).state = InstanceState.running) :
    0 < env.availableReplicas := by
  rw [reconcileTail] at h
  cases hfe : firstErr [env.gitSecretErr, env.configMapBuildErr, env.configMapErr,
      env.pvcErr, env.serviceAccountErr, env.deploymentErr, env.depGetErr,
      env.serviceErr] with
  | some e =>
    rw [hfe] at h
    simp [updateStatusError] at h
  | none =>
    rw [hfe] at h
    simp only [] at h
    by_cases hrep : env.availableReplicas > 0
    · exact hrep
    · exfalso
      rw [if_neg hrep] at h
      cases hsu : env.statusUpdateErr <;> rw [hsu] at h <;>
        simp [updateStatusPending] at h

/-- C7, counterexample to the claim as stated: a successful pass (nil
error) can end with the status state still Running while the deployment
reports zero available replicas — when the shared API-key secret has gone
missing, the pass takes the 30-second requeue branch without re-polling
workload readiness, leaving a previously set Running state in place. -/
theorem c7_counterexample :
    reconcileNormal ⟨InstanceState.running, none, none, none, none,
        APIKeyOutcome.srcNotFound, none, none, none, none, none, none, none,
        0, none, none, none⟩ =
      ⟨InstanceState.running, 30, none⟩ := by
  decide

/-- C7 (amended): the status state is only ever set to Running when the
workload reports a positive available-replica count — a pass that did not
start in Running never ends in Running with zero replicas — and in a pass
that reaches the readiness check with all steps succeeding, a positive
count ends the pass Running with no requeue, while a non-positive count
ends it Pending with the fixed 5-second requeue. -/
theorem c7_running_gate (env : ReconcileEnv) :
    (env.initialState ≠ InstanceState.running →
      (reconcileNormal env).state = InstanceState.running →
      0 < env.availableReplicas) ∧
    (firstErr [env.personalityErr, env.mcpResolveErr, env.validateErr,
        env.namespaceErr] = none →
      env.apiKey = APIKeyOutcome.copied →
      firstErr [env.gitSecretErr, env.configMapBuildErr, env.configMapErr,
        env.pvcErr, env.serviceAccountErr, env.deploymentErr, env.depGetErr,
        env.serviceErr] = none →
      env.statusUpdateErr = none →
      ((0 < env.availableReplicas →
          reconcileNormal env = ⟨InstanceState.running, 0, none⟩) ∧
        (env.availableReplicas ≤ 0 →
          reconcileNormal env = ⟨InstanceState.pending, 5, none⟩))) := by
  constructor
  · intro hi h
    rw [reconcileNormal] at h
    cases hfe : firstErr [env.personalityErr, env.mcpResolveErr, env.validateErr,
        env.namespaceErr] with
    | some e =>
      rw [hfe] at h
      simp [updateStatusError] at h
    | none =>
      rw [hfe] at h
      simp only [] at h
      cases hak : env.apiKey <;> rw [hak] at h <;> simp only [copyAPIKeySecret] at h
      case copied => exact reconcileTail_running env h
      case srcNotFound =>
        exfalso
        cases his : env.initialState <;> rw [his] at h
        case unset => exact absurd h (by decide)
        case pending => exact absurd h (by decide)
        case running => exact hi his
        case errorState => exact absurd h (by decide)
      case fetchFailed msg => simp [updateStatusError] at h
      case missingField => simp [updateStatusError] at h
      case upsertFailed msg => simp [updateStatusError] at h
  · intro hpre hak hpost hsu
    constructor
    · intro hrep
      rw [reconcileNormal, hpre, hak]
      show reconcileTail env = _
      rw [reconcileTail, hpost, if_pos hrep, hsu]
      exact rfl
    · intro hle
      rw [reconcileNormal, hpre, hak]
      show reconcileTail env = _
      rw [reconcileTail, hpost, if_neg (not_lt.mpr hle), hsu]
      exact rfl

theorem c7_running_gate_witness :
    reconcileNormal ⟨InstanceState.pending, none, none, none, none,
        APIKeyOutcome.copied, none, none, none, none, none, none, none,
        1, none, none, none⟩ =
      ⟨InstanceState.running, 0, none⟩ :=
  ((c7_running_gate ⟨InstanceState.pending, none, none, none, none,
      APIKeyOutcome.copied, none, none, none, none, none, none, none,
      1, none, none, none⟩).2 rfl rfl rfl rfl).1 (by decide)

/-- C8: when the shared API-key secret does not exist yet, the pass returns
the fixed 30-second requeue with a nil error and does not transition the
instance to the Error state; any other failure fetching or copying that
secret is returned as an error with the status set to Error. -/
theorem c8_api_key_requeue (env : ReconcileEnv)
    (hpre : firstErr [env.personalityErr, env.mcpResolveErr, env.validateErr,
      env.namespaceErr] = none) :
    (env.apiKey = APIKeyOutcome.srcNotFound →
      reconcileNormal env = ⟨stateAfterNormalize env.initialState, 30, none⟩ ∧
      (reconcileNormal env).err = none ∧
      (env.initialState ≠ InstanceState.errorState →
        (reconcileNormal env).state ≠ InstanceState.errorState)) ∧
    (∀ msg, env.apiKey = APIKeyOutcome.fetchFailed msg →
      reconcileNormal env =
        updateStatusError ("fetching Anthropic API key secret: " ++ msg)) ∧
    (env.apiKey = APIKeyOutcome.missingField →
      reconcileNormal env =
        updateStatusError "Anthropic API key secret missing api-key field") ∧
    (∀ msg, env.apiKey = APIKeyOutcome.upsertFailed msg →
      reconcileNormal env = updateStatusError msg) := by
  refine ⟨?_, ?_, ?_, ?_⟩
  · intro hak
    have hres : reconcileNormal env =
        ⟨stateAfterNormalize env.initialState, 30, none⟩ := by
      rw [reconcileNormal, hpre, hak]
      exact rfl
    refine ⟨hres, by rw [hres], ?_⟩
    intro hi
    rw [hres]
    cases his : env.initialState
    case unset => decide
    case pending => decide
    case running => decide
    case errorState => exact absurd his hi
  · intro msg hak
    rw [reconcileNormal, hpre, hak]
    exact rfl
  · intro hak
    rw [reconcileNormal, hpre, hak]
    exact rfl
  · intro msg hak
    rw [reconcileNormal, hpre, hak]
    exact rfl

theorem c8_api_key_requeue_witness :
    reconcileNormal ⟨InstanceState.pending, none, none, none, none,
        APIKeyOutcome.srcNotFound, none, none, none, none, none, none, none,
        0, none, none, none⟩ =
      ⟨InstanceState.pending, 30, none⟩ :=
  ((c8_api_key_requeue ⟨InstanceState.pending, none, none, none, none,
      APIKeyOutcome.srcNotFound, none, none, none, none, none, none, none,
      0, none, none, none⟩ rfl).1 rfl).1

end Klaus
